import Mathlib

/-!
Shallow embedding of the chemistry graph layer of `chempy/molecule.py`:
the Atom/Bond data model, the ChemGraph hydrogen compression transform,
and the Molecule import/export adapter and resonance-form isomorphism test.

Python object identity is modelled by a numeric `id` carried on each atom
(an arena of atoms addressed by opaque indices); Python dictionaries keyed
by atom identity are modelled as association lists keyed by those ids, with
assignment replacing the value at an existing key in place and appending a
new key at the end, exactly as dictionary assignment behaves.  Exceptions
are modelled with `Except ChemError`.
-/

/-- An element of the periodic table.  Modelled from the spec: the Element
Registry is an external immutable lookup exposing atomic number and symbol;
registry entries are immutable so Python `is` identity on them coincides
with value equality. -/
structure Element where
  number : Nat
  symbol : String
deriving DecidableEq, Repr

/-- An atom: the vertex payload of a chemical graph, together with its
arena id standing for Python object identity. -/
structure Atom where
  id : Nat
  element : Element
  radicalElectrons : Int
  spinMultiplicity : Int
  implicitHydrogens : Int
  charge : Int
  label : String
deriving DecidableEq, Repr

/-- A chemical bond; `order` is 1 = single, 2 = double, 3 = triple,
5 = aromatic sentinel. -/
structure Bond where
  order : Int
deriving DecidableEq, Repr

/-- Errors: `configurationError` models the failure of element resolution
(`elements.__dict__[element]` on an unknown symbol), `keyError` a Python
dictionary lookup failure, `indexError` an out-of-range list index. -/
inductive ChemError where
  | configurationError
  | keyError
  | indexError
deriving DecidableEq, Repr

/-- Adjacency row of one atom: the inner bond dictionary keyed by the
neighbor atom's id. -/
abbrev BondRow := List (Nat × Bond)

/-- The bond table: the outer bond dictionary keyed by atom id. -/
abbrev BondTable := List (Nat × BondRow)

/-- Dictionary lookup on an association list (first matching key). -/
def dictGet {α : Type} : List (Nat × α) → Nat → Option α
  | [], _ => none
  | p :: rest, k => if p.1 = k then some p.2 else dictGet rest k

/-- Dictionary assignment on an association list: replace the value at the
first occurrence of the key in place, or append the key at the end, as
Python dictionary assignment does. -/
def dictSet {α : Type} : List (Nat × α) → Nat → α → List (Nat × α)
  | [], k, v => [(k, v)]
  | p :: rest, k, v => if p.1 = k then (k, v) :: rest else p :: dictSet rest k v

/-- Keys of an association list, in storage order. -/
def keysOf {α : Type} (l : List (Nat × α)) : List Nat := l.map (fun p => p.1)

/-- Ids of a list of atoms, in storage order. -/
def atomIds (l : List Atom) : List Nat := l.map (fun a => a.id)

/-- Atom.isHydrogen: atomic number 1. -/
def Atom.isHydrogen (a : Atom) : Bool := a.element.number == 1

/-- Atom.isNonHydrogen: atomic number above 1. -/
def Atom.isNonHydrogen (a : Atom) : Bool := decide (1 < a.element.number)

/-- Atom.equivalent: same element, radical electrons, spin multiplicity,
implicit hydrogen count and charge; the label is ignored. -/
def Atom.equivalent (a b : Atom) : Bool :=
  a.element == b.element && a.radicalElectrons == b.radicalElectrons &&
  a.spinMultiplicity == b.spinMultiplicity &&
  a.implicitHydrogens == b.implicitHydrogens && a.charge == b.charge

/-- Bond.equivalent: same order. -/
def Bond.equivalent (b c : Bond) : Bool := b.order == c.order

/-- A ChemGraph: the vertex list, the symmetric bond dictionary and the
`implicitHydrogens` representation flag (`__init__` sets it to `False`). -/
structure ChemGraph where
  atoms : List Atom
  bonds : BondTable
  implicitHydrogens : Bool
deriving DecidableEq, Repr

/-- The symbol table of the element registry.  Modelled from the spec: the
registry resolves a symbol to an element; only the elements this layer
names (hydrogen, carbon, nitrogen, oxygen) are listed. -/
def symbolRegistry : List (String × Element) :=
  [("H", ⟨1, "H"⟩), ("C", ⟨6, "C"⟩), ("N", ⟨7, "N"⟩), ("O", ⟨8, "O"⟩)]

/-- Symbol lookup in the registry (first matching symbol). -/
def symbolGet : List (String × Element) → String → Option Element
  | [], _ => none
  | p :: rest, s => if p.1 = s then some p.2 else symbolGet rest s

/-- Element resolution by atomic number.  Modelled from the spec: the
registry resolves an atomic number to its element. -/
def elementFromNumber (n : Nat) : Element :=
  ⟨n, if n = 1 then "H" else if n = 6 then "C" else if n = 7 then "N"
      else if n = 8 then "O" else ""⟩

/-- Atom construction from a symbol (`Atom.__init__` with a string
`element` argument): resolve the symbol against the registry; an
unresolvable symbol fails with the configuration error. -/
def atomFromSymbol (s : String) (radicalElectrons spinMultiplicity
    implicitHydrogens charge : Int) (label : String) (i : Nat) :
    Except ChemError Atom :=
  match symbolGet symbolRegistry s with
  | none => .error .configurationError
  | some e => .ok ⟨i, e, radicalElectrons, spinMultiplicity,
      implicitHydrogens, charge, label⟩

/-- A fresh hydrogen atom as built by `Atom(element='H')` inside
`makeHydrogensExplicit`, allocated at arena id `i`. -/
def mkH (i : Nat) : Atom :=
  ⟨i, ⟨1, "H"⟩, 0, 1, 0, 0, ""⟩

/-- ChemGraph.addAtom / Graph.addVertex.  Modelled from the spec: the atom
is appended to the vertex list and initialized with no bonds. -/
def ChemGraph.addAtom (g : ChemGraph) (a : Atom) : ChemGraph :=
  { g with atoms := g.atoms ++ [a], bonds := dictSet g.bonds a.id [] }

/-- Create an empty adjacency row for an atom id when it has none
(`if atom not in bonds: bonds[atom] = dict()`). -/
def ensureRow (B : BondTable) (x : Nat) : BondTable :=
  match dictGet B x with
  | none => dictSet B x []
  | some _ => B

/-- Store a bond in one direction (`bonds[x][y] = bond`): write it into
the adjacency row of `x` under the key `y`. -/
def setRowEntry (B : BondTable) (x y : Nat) (bd : Bond) : BondTable :=
  dictSet B x (dictSet ((dictGet B x).getD []) y bd)

/-- Symmetric bond insertion: create the two adjacency rows when missing,
then store the bond under both `(x, y)` and `(y, x)`.  This is the inline
storage code of `fromOBMol` and, per the spec, the behaviour of the Graph
Capability's edge insertion used by `addBond`. -/
def setBondPair (B : BondTable) (x y : Nat) (bd : Bond) : BondTable :=
  setRowEntry (setRowEntry (ensureRow (ensureRow B x) y) x y bd) y x bd

/-- ChemGraph.addBond: connect two atoms by a bond, stored symmetrically. -/
def ChemGraph.addBond (g : ChemGraph) (x y : Nat) (bd : Bond) : ChemGraph :=
  { g with bonds := setBondPair g.bonds x y bd }

/-- Remove an atom id from the bond table: drop its row and drop its
entries from every remaining row.  Modelled from the spec: removing an
atom removes all bonds associated with it, leaving no dangling endpoints. -/
def removeInner (B : BondTable) (i : Nat) : BondTable :=
  (B.filter (fun p => p.1 != i)).map (fun p => (p.1, p.2.filter (fun q => q.1 != i)))

/-- Remove the first atom with the given id from a vertex list
(Python `list.remove` removes the first identity match). -/
def eraseAtomId : List Atom → Nat → List Atom
  | [], _ => []
  | a :: rest, i => if a.id = i then rest else a :: eraseAtomId rest i

/-- ChemGraph.removeAtom / Graph.removeVertex, addressed by atom id. -/
def ChemGraph.removeAtomId (g : ChemGraph) (i : Nat) : ChemGraph :=
  { g with atoms := eraseAtomId g.atoms i, bonds := removeInner g.bonds i }

/-- Bump an atom's implicit hydrogen counter by one in the atom store
(`neighbor.implicitHydrogens += 1` acting on the shared atom object). -/
def incrementImplicitH (store : List Atom) (i : Nat) : List Atom :=
  store.map (fun a => if a.id = i then
    { a with implicitHydrogens := a.implicitHydrogens + 1 } else a)

/-- The counting pass of `makeHydrogensImplicit`: walk the vertex list; for
each hydrogen atom look up its adjacency row (`self.bonds[atom]`, a
dictionary KeyError when absent), take the first listed neighbor
(`keys()[0]`, an IndexError when empty), increment that neighbor's counter
in the store, and record the hydrogen for later removal. -/
def implicitScan (B : BondTable) :
    List Atom → List Atom → List Nat → Except ChemError (List Atom × List Nat)
  | [], store, hyds => .ok (store, hyds)
  | a :: rest, store, hyds =>
    if a.isHydrogen then
      match dictGet B a.id with
      | none => .error .keyError
      | some row =>
        match row.head? with
        | none => .error .indexError
        | some nb => implicitScan B rest (incrementImplicitH store nb.1) (hyds ++ [a.id])
    else implicitScan B rest store hyds

/-- ChemGraph.makeHydrogensImplicit: if every vertex is a hydrogen atom do
nothing; otherwise count each hydrogen onto its first bonded neighbor,
remove the recorded hydrogens in a second pass, and set the representation
flag to true. -/
def ChemGraph.makeHydrogensImplicit (g : ChemGraph) : Except ChemError ChemGraph :=
  if g.atoms.all (fun a => a.isHydrogen) then .ok g
  else
    match implicitScan g.bonds g.atoms g.atoms [] with
    | .error e => .error e
    | .ok (store, hyds) =>
      let g' := hyds.foldl (fun h i => h.removeAtomId i)
        { g with atoms := store }
      .ok { g' with implicitHydrogens := true }

/-- Zero an atom's counter the way the planning `while` loop leaves it: a
positive counter is decremented to zero, a non-positive counter never
enters the loop and is left unchanged. -/
def zeroCounter (a : Atom) : Atom :=
  { a with implicitHydrogens := a.implicitHydrogens - a.implicitHydrogens.toNat }

/-- The planning pass of `makeHydrogensExplicit`: walk the atoms, and for
each atom plan one fresh hydrogen (arena ids allocated consecutively from
`base`) per unit of its positive counter, zeroing the counter.  Returns the
updated atom store and the plans `(hydrogen id, target atom id)` in
creation order. -/
def planHydrogens : List Atom → Nat → List Atom × List (Nat × Nat)
  | [], _ => ([], [])
  | a :: rest, base =>
    let cnt := a.implicitHydrogens.toNat
    let r := planHydrogens rest (base + cnt)
    (zeroCounter a :: r.1, (List.range cnt).map (fun k => (base + k, a.id)) ++ r.2)

/-- First unused arena id of a graph. -/
def freshBase (g : ChemGraph) : Nat :=
  (atomIds g.atoms).foldr max 0 + 1

/-- ChemGraph.makeHydrogensExplicit: plan one new hydrogen vertex plus one
single bond per implicit hydrogen across all atoms, then apply the planned
additions, and set the representation flag to false. -/
def ChemGraph.makeHydrogensExplicit (g : ChemGraph) : ChemGraph :=
  let r := planHydrogens g.atoms (freshBase g)
  let g' := r.2.foldl (fun h p => (h.addAtom (mkH p.1)).addBond p.1 p.2 ⟨1⟩)
    { g with atoms := r.1 }
  { g' with implicitHydrogens := false }

/-- Insert an atom into an id-sorted list keeping it sorted. -/
def insertById (a : Atom) : List Atom → List Atom
  | [] => [a]
  | b :: rest => if a.id ≤ b.id then a :: b :: rest else b :: insertById a rest

/-- Canonical atom ordering.  Modelled from the spec: `sortAtoms` applies a
deterministic canonical sort to the vertex list; here the atoms are ordered
by arena id. -/
def sortAtomsList : List Atom → List Atom
  | [] => []
  | a :: rest => insertById a (sortAtomsList rest)

/-- ChemGraph.sortAtoms. -/
def ChemGraph.sortAtoms (g : ChemGraph) : ChemGraph :=
  { g with atoms := sortAtomsList g.atoms }

/-- ChemGraph.copy: delegate to the Graph Capability's copy (modelled from
the spec: a shallow copy aliases the source's atoms and bonds, a deep copy
produces independently-identified copies, here given fresh arena ids by a
uniform offset), then rebuild through the `ChemGraph` constructor, whose
initializer sets the representation flag to `False`. -/
def ChemGraph.copy (g : ChemGraph) (deep : Bool) : ChemGraph :=
  let base := freshBase g
  let atoms' := if deep then g.atoms.map (fun a => { a with id := a.id + base })
    else g.atoms
  let bonds' := if deep then
    g.bonds.map (fun p => (p.1 + base, p.2.map (fun q => (q.1 + base, q.2))))
    else g.bonds
  { atoms := atoms', bonds := bonds', implicitHydrogens := false }

/-- A foreign (OpenBabel) atom as read by the import adapter: atomic
number, spin-multiplicity code and formal charge. -/
structure OBAtom where
  atomicNum : Nat
  spinCode : Int
  formalCharge : Int
deriving DecidableEq, Repr

/-- A foreign bond handle exposing the four classification predicates the
adapter queries. -/
structure OBBond where
  isSingle : Bool
  isDouble : Bool
  isTriple : Bool
  isAromatic : Bool
deriving DecidableEq, Repr

/-- A foreign molecular model after its own `AddHydrogens()` call (the
hydrogen completion happens inside the foreign library, before the adapter
reads the model).  Atoms are indexed by position; bonds are recorded
between two atom positions. -/
structure OBMol where
  obatoms : List OBAtom
  obbonds : List ((Nat × Nat) × OBBond)
deriving DecidableEq, Repr

/-- Query the foreign model for the bond between the atoms at positions
`i` and `j`, in either orientation. -/
def OBMol.getBond (m : OBMol) (i j : Nat) : Option OBBond :=
  (m.obbonds.find? (fun e =>
    (e.1.1 == i && e.1.2 == j) || (e.1.1 == j && e.1.2 == i))).map (fun e => e.2)

/-- The spin-multiplicity decode of `fromOBMol`: `radicalElectrons` starts
at 0 and `spinMultiplicity` at the foreign code; the `if`/`elif` chain
rewrites the recognized codes 0, 1, 2, 3 and leaves any other code as it
stands.  Returns `(radicalElectrons, spinMultiplicity)`. -/
def decodeSpin (code : Int) : Int × Int :=
  if code = 0 then (0, 1)
  else if code = 1 then (2, 1)
  else if code = 2 then (1, 2)
  else if code = 3 then (2, 3)
  else (0, code)

/-- The bond-order classification of `fromOBMol`: predicates queried in
the priority single, double, triple, aromatic; an unmatched bond falls
through to order 0. -/
def classifyBond (b : OBBond) : Int :=
  if b.isSingle then 1
  else if b.isDouble then 2
  else if b.isTriple then 3
  else if b.isAromatic then 5
  else 0

/-- The atom constructed for foreign position `i` by `fromOBMol`:
`Atom(element, radicalElectrons, spinMultiplicity, 0, charge)`. -/
def mkImportAtom (i : Nat) (oa : OBAtom) : Atom :=
  ⟨i, elementFromNumber oa.atomicNum, (decodeSpin oa.spinCode).1,
    (decodeSpin oa.spinCode).2, 0, oa.formalCharge, ""⟩

/-- One iteration of the import loop at foreign position `i`: append the
decoded atom to the vertex list, then scan all earlier positions `j < i`
and store each existing bond symmetrically under both orientations. -/
def importStep (ob : OBMol) (g : ChemGraph) (i : Nat) : ChemGraph :=
  match ob.obatoms.get? i with
  | none => g
  | some oa =>
    { atoms := g.atoms ++ [mkImportAtom i oa],
      bonds := (List.range i).foldl (fun B j =>
        match ob.getBond i j with
        | none => B
        | some obb => setBondPair B i j ⟨classifyBond obb⟩) g.bonds,
      implicitHydrogens := g.implicitHydrogens }

/-- The graph-construction loops of `fromOBMol`, before hydrogen
compression. -/
def buildChemGraph (ob : OBMol) : ChemGraph :=
  (List.range ob.obatoms.length).foldl (importStep ob) ⟨[], [], false⟩

/-- A Molecule: its list of resonance forms. -/
structure Molecule where
  resonanceForms : List ChemGraph
deriving DecidableEq, Repr

/-- Molecule.fromOBMol: build the graph from the foreign model, store it
as the sole resonance form, and compress its hydrogens. -/
def fromOBMol (ob : OBMol) : Except ChemError Molecule :=
  match (buildChemGraph ob).makeHydrogensImplicit with
  | .error e => .error e
  | .ok g' => .ok ⟨[g']⟩

/-- The foreign model built by the export adapter: one `(atomic number,
formal charge)` pair per `NewAtom` call in order, and one
`(index1 + 1, index2 + 1, order)` triple per `AddBond` call in order. -/
structure OBMolOut where
  outAtoms : List (Nat × Int)
  outBonds : List (Nat × Nat × Int)
deriving DecidableEq, Repr

/-- Position of the atom with id `i` in the vertex list
(`atoms.index(atom)`). -/
def idIndex (atoms : List Atom) (i : Nat) : Nat :=
  atoms.findIdx (fun a => a.id == i)

/-- The bond-emission loops of `toOBMol`: for every stored row and every
entry in it, emit one foreign `AddBond(index1 + 1, index2 + 1, order)`
call exactly when the first endpoint's list index is below the second's. -/
def emitBonds (atoms : List Atom) (B : BondTable) : List (Nat × Nat × Int) :=
  B.flatMap (fun p => p.2.flatMap (fun q =>
    if idIndex atoms p.1 < idIndex atoms q.1 then
      [(idIndex atoms p.1 + 1, idIndex atoms q.1 + 1, q.2.order)]
    else []))

/-- Molecule.toOBMol acting on the sole exporting resonance form: record
the representation flag, force explicit hydrogens, canonically sort the
atoms, emit the foreign atoms and bonds, and re-compress the hydrogens
exactly when the recorded flag was set.  Returns the resonance form as the
call leaves it together with the emitted foreign model. -/
def toOBMolCG (g : ChemGraph) : Except ChemError (ChemGraph × OBMolOut) :=
  let implicitH := g.implicitHydrogens
  let g2 := g.makeHydrogensExplicit.sortAtoms
  let out : OBMolOut :=
    ⟨g2.atoms.map (fun a => (a.element.number, a.charge)),
     emitBonds g2.atoms g2.bonds⟩
  if implicitH then
    match g2.makeHydrogensImplicit with
    | .error e => .error e
    | .ok g3 => .ok (g3, out)
  else .ok (g2, out)

/-- The stored bond between the atoms with ids `i` and `j`, if any. -/
def bondValue (B : BondTable) (i j : Nat) : Option Bond :=
  match dictGet B i with
  | none => none
  | some row => dictGet row j

/-- Check that the paired atoms of a candidate correspondence are
equivalent. -/
def atomsMatch (p : List (Atom × Atom)) : Bool :=
  p.all (fun q => q.1.equivalent q.2)

/-- Check that a candidate correspondence carries every stored bond to an
equivalent stored bond and every non-bond to a non-bond. -/
def bondsMatch (g1 g2 : ChemGraph) (p : List (Atom × Atom)) : Bool :=
  p.all (fun q1 => p.all (fun q2 =>
    match bondValue g1.bonds q1.1.id q2.1.id, bondValue g2.bonds q1.2.id q2.2.id with
    | none, none => true
    | some b1, some b2 => b1.equivalent b2
    | _, _ => false))

/-- ChemGraph.isIsomorphic.  Modelled from the spec: the Graph Capability
isomorphism test, parameterized by `Atom.equivalent` and `Bond.equivalent`;
realized by searching the orderings of the second graph's atoms for a
correspondence matching atoms and bonds. -/
def ChemGraph.isIsomorphicCG (g1 g2 : ChemGraph) : Bool :=
  g2.atoms.permutations.any (fun perm =>
    g1.atoms.length == g2.atoms.length &&
    atomsMatch (g1.atoms.zip perm) && bondsMatch g1 g2 (g1.atoms.zip perm))

/-- The argument of `Molecule.isIsomorphic`: a Molecule, a single
ChemGraph, or a value of any other type. -/
inductive MolArg where
  | mol (m : Molecule)
  | graph (g : ChemGraph)
  | other (descr : String)

/-- The inner loop of `Molecule.isIsomorphic` over the other molecule's
resonance forms, with its early `return True`. -/
def isoLoopInner (g1 : ChemGraph) : List ChemGraph → Bool
  | [] => false
  | g2 :: rest => if g1.isIsomorphicCG g2 then true else isoLoopInner g1 rest

/-- The outer loop of `Molecule.isIsomorphic` over this molecule's
resonance forms, against another molecule. -/
def isoLoopOuter : List ChemGraph → List ChemGraph → Bool
  | [], _ => false
  | g1 :: rest, others =>
    if isoLoopInner g1 others then true else isoLoopOuter rest others

/-- The loop of `Molecule.isIsomorphic` against a single ChemGraph. -/
def isoLoopGraph : List ChemGraph → ChemGraph → Bool
  | [], _ => false
  | g1 :: rest, g => if g1.isIsomorphicCG g then true else isoLoopGraph rest g

/-- Molecule.isIsomorphic: match any resonance form of this molecule
against any resonance form of another molecule, or against a single
ChemGraph directly; any other argument type falls through to `False`. -/
def Molecule.isIsomorphic (m : Molecule) : MolArg → Bool
  | .mol o => isoLoopOuter m.resonanceForms o.resonanceForms
  | .graph g => isoLoopGraph m.resonanceForms g
  | .other _ => false

/-- Symmetric bond storage: every stored bond is also stored under the
swapped endpoints with the same value. -/
def symmBonds (B : BondTable) : Prop :=
  ∀ a b bd, bondValue B a b = some bd → bondValue B b a = some bd

/-- Total number of stored directed bond entries (each chemical bond
contributes its two symmetric entries). -/
def bondEntryCount (B : BondTable) : Nat :=
  (B.map (fun p => p.2.length)).sum

/-- Example carbon atom with a given arena id and implicit hydrogen
counter. -/
def cAtom (i : Nat) (ih : Int) : Atom := ⟨i, ⟨6, "C"⟩, 0, 1, ih, 0, ""⟩

/-- Example oxygen atom. -/
def oAtom (i : Nat) : Atom := ⟨i, ⟨8, "O"⟩, 0, 1, 0, 0, ""⟩

/-- Example hydrogen atom. -/
def hAtom (i : Nat) : Atom := ⟨i, ⟨1, "H"⟩, 0, 1, 0, 0, ""⟩

/-- Foreign model with a single carbon atom carrying the unrecognized
spin code 4. -/
def obSpin4 : OBMol := ⟨[⟨6, 4, 0⟩], []⟩

/-- Foreign model with a single carbon atom carrying spin code 2. -/
def obSpin2 : OBMol := ⟨[⟨6, 2, 0⟩], []⟩

/-- Foreign model with a carbon and an oxygen joined by a single bond. -/
def obCO : OBMol := ⟨[⟨6, 0, 0⟩, ⟨8, 0, 0⟩], [((0, 1), ⟨true, false, false, false⟩)]⟩

/-- Graph with a hydrogen vertex of degree 2, bonded to two carbons. -/
def gDegTwo : ChemGraph :=
  ⟨[cAtom 0 0, cAtom 1 0, hAtom 2],
   [(0, [(2, ⟨1⟩)]), (1, [(2, ⟨1⟩)]), (2, [(0, ⟨1⟩), (1, ⟨1⟩)])], false⟩

/-- Graph with one carbon bonded to one explicit hydrogen of degree 1. -/
def gCH : ChemGraph :=
  ⟨[cAtom 0 0, hAtom 1], [(0, [(1, ⟨1⟩)]), (1, [(0, ⟨1⟩)])], false⟩

/-- Compressed graph: one carbon carrying two implicit hydrogens. -/
def gC2H : ChemGraph := ⟨[cAtom 0 2], [(0, [])], true⟩

/-- Compressed graph: one carbon carrying one implicit hydrogen, with the
representation flag set. -/
def gC1H : ChemGraph := ⟨[cAtom 0 1], [(0, [])], true⟩

/-- All-hydrogen graph: two bonded hydrogen atoms. -/
def gHH : ChemGraph :=
  ⟨[hAtom 0, hAtom 1], [(0, [(1, ⟨1⟩)]), (1, [(0, ⟨1⟩)])], false⟩

/-- Explicit two-atom carbon and oxygen graph with a single bond, used to
exercise the export emission loop. -/
def gCOex : ChemGraph :=
  ⟨[cAtom 0 0, oAtom 1], [(0, [(1, ⟨1⟩)]), (1, [(0, ⟨1⟩)])], false⟩

/-- The ChemGraph that importing `obCO` produces. -/
def gCOimp : ChemGraph :=
  ⟨[⟨0, ⟨6, "C"⟩, 0, 1, 0, 0, ""⟩, ⟨1, ⟨8, "O"⟩, 0, 1, 0, 0, ""⟩],
   [(1, [(0, ⟨1⟩)]), (0, [(1, ⟨1⟩)])], true⟩

/-- Bump an atom's implicit hydrogen counter by a natural number. -/
def bumpBy (a : Atom) (n : Nat) : Atom :=
  { a with implicitHydrogens := a.implicitHydrogens + (n : Int) }

/-- The id of the first-listed neighbor of the atom with id `i`, when its
adjacency row exists and is nonempty. -/
def headNeighborId (B : BondTable) (i : Nat) : Option Nat :=
  (dictGet B i).bind (fun row => row.head?.map (fun q => q.1))

/-- How many hydrogen atoms of the list are compressed onto the atom with
id `i`: those whose first-listed neighbor is `i`. -/
def targetCount (B : BondTable) (L : List Atom) (i : Nat) : Nat :=
  L.countP (fun a => a.isHydrogen && (headNeighborId B a.id == some i))

/-- The ids of the hydrogen atoms of a list, in order. -/
def hydIds (L : List Atom) : List Nat :=
  (L.filter (fun a => a.isHydrogen)).map (fun a => a.id)

/-- The single-bond entries planned onto the adjacency row of the atom
with id `k`: one per planned hydrogen targeting `k`, in plan order. -/
def planEntriesFor (plans : List (Nat × Nat)) (k : Nat) : BondRow :=
  (plans.filter (fun p => p.2 == k)).map (fun p => (p.1, ⟨1⟩))

/-- Extend every adjacency row of a table by its planned hydrogen
entries. -/
def addPlanEntries (B : BondTable) (plans : List (Nat × Nat)) : BondTable :=
  B.map (fun p => (p.1, p.2 ++ planEntriesFor plans p.1))

/-- The adjacency rows of the planned hydrogen atoms themselves: each row
holds the single bond back to its target. -/
def planRows (plans : List (Nat × Nat)) : BondTable :=
  plans.map (fun p => (p.1, [(p.2, ⟨1⟩)]))

/-- Total number of planned hydrogens of an atom list. -/
def totalH (A : List Atom) : Nat :=
  (A.map (fun a => a.implicitHydrogens.toNat)).sum

section DictLemmas

variable {α : Type}

theorem dictGet_dictSet_self (l : List (Nat × α)) (k : Nat) (v : α) :
    dictGet (dictSet l k v) k = some v := by
  induction l with
  | nil => simp [dictGet, dictSet]
  | cons p rest ih =>
    by_cases h : p.1 = k
    · simp [dictSet, h, dictGet]
    · simp [dictSet, h, dictGet, ih]

theorem dictGet_dictSet_ne (l : List (Nat × α)) (k j : Nat) (v : α)
    (hkj : k ≠ j) : dictGet (dictSet l k v) j = dictGet l j := by
  induction l with
  | nil => simp [dictGet, dictSet, hkj]
  | cons p rest ih =>
    by_cases h : p.1 = k
    · simp only [dictSet, if_pos h, dictGet]
      rw [if_neg hkj, if_neg (by rw [h]; exact hkj)]
    · simp only [dictSet, if_neg h, dictGet]
      by_cases h2 : p.1 = j
      · rw [if_pos h2, if_pos h2]
      · rw [if_neg h2, if_neg h2, ih]

theorem dictGet_isSome_iff (l : List (Nat × α)) (k : Nat) :
    (dictGet l k).isSome ↔ k ∈ keysOf l := by
  induction l with
  | nil => simp [dictGet, keysOf]
  | cons p rest ih =>
    by_cases h : p.1 = k
    · simp [dictGet, h, keysOf]
    · simp [dictGet, h, keysOf, ih]
      exact fun he => absurd he.symm h

theorem dictGet_eq_none_iff (l : List (Nat × α)) (k : Nat) :
    dictGet l k = none ↔ k ∉ keysOf l := by
  rw [← dictGet_isSome_iff]
  cases dictGet l k <;> simp

theorem dictSet_not_mem (l : List (Nat × α)) (k : Nat) (v : α)
    (h : k ∉ keysOf l) : dictSet l k v = l ++ [(k, v)] := by
  induction l with
  | nil => simp [dictSet]
  | cons p rest ih =>
    simp only [keysOf, List.map_cons, List.mem_cons] at h
    push_neg at h
    have h1 : ¬p.1 = k := fun he => h.1 he.symm
    simp only [dictSet, if_neg h1, List.cons_append, List.cons.injEq, true_and]
    exact ih (by simpa [keysOf] using h.2)

theorem dictGet_append_left (l m : List (Nat × α)) (k : Nat)
    (h : k ∈ keysOf l) : dictGet (l ++ m) k = dictGet l k := by
  induction l with
  | nil => simp [keysOf] at h
  | cons p rest ih =>
    by_cases hp : p.1 = k
    · simp [dictGet, hp]
    · simp only [keysOf, List.map_cons, List.mem_cons] at h
      rcases h with h | h
      · exact absurd h.symm hp
      · simp [dictGet, hp, ih (by simpa [keysOf] using h)]

theorem dictGet_append_right (l m : List (Nat × α)) (k : Nat)
    (h : k ∉ keysOf l) : dictGet (l ++ m) k = dictGet m k := by
  induction l with
  | nil => simp
  | cons p rest ih =>
    simp only [keysOf, List.map_cons, List.mem_cons] at h
    push_neg at h
    have h1 : ¬p.1 = k := fun he => h.1 he.symm
    simp only [List.cons_append, dictGet, if_neg h1]
    exact ih (by simpa [keysOf] using h.2)

theorem dictSet_append_left (l m : List (Nat × α)) (k : Nat) (v : α)
    (h : k ∈ keysOf l) : dictSet (l ++ m) k v = dictSet l k v ++ m := by
  induction l with
  | nil => simp [keysOf] at h
  | cons p rest ih =>
    by_cases hp : p.1 = k
    · simp [dictSet, hp]
    · simp only [keysOf, List.map_cons, List.mem_cons] at h
      rcases h with h | h
      · exact absurd h.symm hp
      · simp [dictSet, hp, ih (by simpa [keysOf] using h)]

theorem keysOf_dictSet_mem (l : List (Nat × α)) (k : Nat) (v : α)
    (h : k ∈ keysOf l) : keysOf (dictSet l k v) = keysOf l := by
  induction l with
  | nil => simp [keysOf] at h
  | cons p rest ih =>
    by_cases hp : p.1 = k
    · simp [dictSet, hp, keysOf]
    · simp only [keysOf, List.map_cons, List.mem_cons] at h
      rcases h with h | h
      · exact absurd h.symm hp
      · simp only [dictSet, if_neg hp, keysOf, List.map_cons, List.cons.injEq, true_and]
        exact ih (by simpa [keysOf] using h)

theorem mem_keysOf_dictSet (l : List (Nat × α)) (k : Nat) (v : α) :
    k ∈ keysOf (dictSet l k v) := by
  induction l with
  | nil => simp [dictSet, keysOf]
  | cons p rest ih =>
    by_cases hp : p.1 = k
    · simp [dictSet, hp, keysOf]
    · simp [dictSet, hp, keysOf] at ih ⊢
      exact Or.inr ih

end DictLemmas

section BondTableLemmas

theorem dictGet_ensureRow_self (B : BondTable) (x : Nat) :
    dictGet (ensureRow B x) x = some ((dictGet B x).getD []) := by
  unfold ensureRow
  cases h : dictGet B x with
  | none => simp [dictGet_dictSet_self]
  | some r => simp [h]

theorem dictGet_ensureRow_ne (B : BondTable) (x j : Nat) (h : x ≠ j) :
    dictGet (ensureRow B x) j = dictGet B j := by
  unfold ensureRow
  cases hx : dictGet B x with
  | none => simp [dictGet_dictSet_ne B x j _ h]
  | some r => rfl

theorem bondValue_eq (B : BondTable) (i j : Nat) :
    bondValue B i j = (dictGet B i).bind (fun row => dictGet row j) := by
  unfold bondValue
  cases dictGet B i <;> rfl

theorem dictGet_setRowEntry_self (B : BondTable) (x y : Nat) (bd : Bond) :
    dictGet (setRowEntry B x y bd) x =
      some (dictSet ((dictGet B x).getD []) y bd) :=
  dictGet_dictSet_self _ _ _

theorem dictGet_setRowEntry_ne (B : BondTable) (x y a : Nat) (bd : Bond)
    (h : x ≠ a) : dictGet (setRowEntry B x y bd) a = dictGet B a :=
  dictGet_dictSet_ne _ _ _ _ h

theorem dictGet_setBondPair_fst (B : BondTable) (x y : Nat) (bd : Bond)
    (hxy : x ≠ y) :
    dictGet (setBondPair B x y bd) x =
      some (dictSet ((dictGet B x).getD []) y bd) := by
  unfold setBondPair
  rw [dictGet_setRowEntry_ne _ y x x _ (Ne.symm hxy), dictGet_setRowEntry_self,
    dictGet_ensureRow_ne _ y x (Ne.symm hxy), dictGet_ensureRow_self]
  simp

theorem dictGet_setBondPair_snd (B : BondTable) (x y : Nat) (bd : Bond)
    (hxy : x ≠ y) :
    dictGet (setBondPair B x y bd) y =
      some (dictSet ((dictGet B y).getD []) x bd) := by
  unfold setBondPair
  rw [dictGet_setRowEntry_self, dictGet_setRowEntry_ne _ x y y _ hxy,
    dictGet_ensureRow_self, dictGet_ensureRow_ne _ x y hxy]
  simp

theorem dictGet_setBondPair_other (B : BondTable) (x y a : Nat) (bd : Bond)
    (hax : a ≠ x) (hay : a ≠ y) :
    dictGet (setBondPair B x y bd) a = dictGet B a := by
  unfold setBondPair
  rw [dictGet_setRowEntry_ne _ y x a _ (Ne.symm hay),
    dictGet_setRowEntry_ne _ x y a _ (Ne.symm hax),
    dictGet_ensureRow_ne _ y a (Ne.symm hay),
    dictGet_ensureRow_ne _ x a (Ne.symm hax)]

theorem bondValue_setBondPair (B : BondTable) (x y : Nat) (bd : Bond)
    (hxy : x ≠ y) (a b : Nat) :
    bondValue (setBondPair B x y bd) a b =
      if (a = x ∧ b = y) ∨ (a = y ∧ b = x) then some bd
      else bondValue B a b := by
  by_cases hax : a = x
  · subst hax
    rw [bondValue_eq, dictGet_setBondPair_fst B a y bd hxy, Option.some_bind]
    by_cases hby : b = y
    · subst hby
      rw [dictGet_dictSet_self, if_pos (Or.inl ⟨rfl, rfl⟩)]
    · rw [dictGet_dictSet_ne _ y b _ (fun he => hby he.symm)]
      have hcond : ¬((a = a ∧ b = y) ∨ (a = y ∧ b = a)) := by
        rintro (⟨h1, h2⟩ | ⟨h1, h2⟩)
        · exact hby h2
        · exact hxy h1
      rw [if_neg hcond, bondValue_eq]
      cases hBx : dictGet B a with
      | none => simp [dictGet]
      | some r => simp
  · by_cases hay : a = y
    · subst hay
      rw [bondValue_eq, dictGet_setBondPair_snd B x a bd hxy, Option.some_bind]
      by_cases hbx : b = x
      · subst hbx
        rw [dictGet_dictSet_self, if_pos (Or.inr ⟨rfl, rfl⟩)]
      · rw [dictGet_dictSet_ne _ x b _ (fun he => hbx he.symm)]
        have hcond : ¬((a = x ∧ b = a) ∨ (a = a ∧ b = x)) := by
          rintro (⟨h1, h2⟩ | ⟨h1, h2⟩)
          · exact hxy h1.symm
          · exact hbx h2
        rw [if_neg hcond, bondValue_eq]
        cases hBy : dictGet B a with
        | none => simp [dictGet]
        | some r => simp
    · rw [bondValue_eq, dictGet_setBondPair_other B x y a bd hax hay,
        ← bondValue_eq]
      have hcond : ¬((a = x ∧ b = y) ∨ (a = y ∧ b = x)) := by
        rintro (⟨h1, h2⟩ | ⟨h1, h2⟩)
        · exact hax h1
        · exact hay h1
      rw [if_neg hcond]

theorem symmBonds_setBondPair (B : BondTable) (x y : Nat) (bd : Bond)
    (hxy : x ≠ y) (h : symmBonds B) : symmBonds (setBondPair B x y bd) := by
  intro a b bd2 hab
  rw [bondValue_setBondPair B x y bd hxy] at hab ⊢
  by_cases hc : (a = x ∧ b = y) ∨ (a = y ∧ b = x)
  · rw [if_pos hc] at hab
    have hc2 : (b = x ∧ a = y) ∨ (b = y ∧ a = x) := by
      rcases hc with ⟨h1, h2⟩ | ⟨h1, h2⟩
      · exact Or.inr ⟨h2, h1⟩
      · exact Or.inl ⟨h2, h1⟩
    rw [if_pos hc2]
    exact hab
  · rw [if_neg hc] at hab
    have hc2 : ¬((b = x ∧ a = y) ∨ (b = y ∧ a = x)) := by
      rintro (⟨h1, h2⟩ | ⟨h1, h2⟩)
      · exact hc (Or.inr ⟨h2, h1⟩)
      · exact hc (Or.inl ⟨h2, h1⟩)
    rw [if_neg hc2]
    exact h a b bd2 hab

theorem dictGet_filter_ne {α : Type} (l : List (Nat × α)) (i k : Nat)
    (hk : k ≠ i) : dictGet (l.filter (fun p => p.1 != i)) k = dictGet l k := by
  induction l with
  | nil => rfl
  | cons p rest ih =>
    by_cases hp : p.1 = i
    · have h1 : (p.1 != i) = false := by simp [hp]
      have h2 : ¬p.1 = k := by rw [hp]; exact fun he => hk he.symm
      simp only [List.filter_cons, h1, Bool.false_eq_true, if_false, ih,
        dictGet, if_neg h2]
    · have h1 : (p.1 != i) = true := by simp [hp]
      simp only [List.filter_cons, h1, if_true, dictGet, ih]

theorem dictGet_filter_self {α : Type} (l : List (Nat × α)) (i : Nat) :
    dictGet (l.filter (fun p => p.1 != i)) i = none := by
  induction l with
  | nil => rfl
  | cons p rest ih =>
    by_cases hp : p.1 = i
    · have h1 : (p.1 != i) = false := by simp [hp]
      simp only [List.filter_cons, h1, Bool.false_eq_true, if_false, ih]
    · have h1 : (p.1 != i) = true := by simp [hp]
      simp only [List.filter_cons, h1, if_true, dictGet, if_neg hp, ih]

theorem dictGet_map_val {α β : Type} (l : List (Nat × α)) (f : α → β) (k : Nat) :
    dictGet (l.map (fun p => (p.1, f p.2))) k = (dictGet l k).map f := by
  induction l with
  | nil => rfl
  | cons p rest ih =>
    by_cases hp : p.1 = k
    · simp [dictGet, hp]
    · simp [dictGet, hp, ih]

theorem bondValue_removeInner (B : BondTable) (i a b : Nat) :
    bondValue (removeInner B i) a b =
      if a = i ∨ b = i then none else bondValue B a b := by
  unfold bondValue removeInner
  by_cases ha : a = i
  · subst ha
    rw [dictGet_map_val, dictGet_filter_self]
    simp
  · rw [dictGet_map_val, dictGet_filter_ne _ _ _ ha]
    cases hr : dictGet B a with
    | none => simp [ha]
    | some row =>
      simp only [Option.map_some]
      by_cases hb : b = i
      · subst hb
        simp [dictGet_filter_self]
      · simp [ha, hb, dictGet_filter_ne row i b hb]

theorem symmBonds_removeInner (B : BondTable) (i : Nat)
    (h : symmBonds B) : symmBonds (removeInner B i) := by
  intro a b bd hab
  rw [bondValue_removeInner] at hab ⊢
  by_cases hc : a = i ∨ b = i
  · rw [if_pos hc] at hab
    cases hab
  · rw [if_neg hc] at hab
    push_neg at hc
    have hcond : ¬(b = i ∨ a = i) := by
      push_neg
      exact ⟨hc.2, hc.1⟩
    rw [if_neg hcond]
    exact h a b bd hab

theorem symmBonds_foldl_removeInner (K : List Nat) :
    ∀ B, symmBonds B → symmBonds (K.foldl removeInner B) := by
  induction K with
  | nil => intro B h; exact h
  | cons k rest ih =>
    intro B h
    exact ih _ (symmBonds_removeInner B k h)

theorem fold_removeAtomId_bonds (K : List Nat) :
    ∀ g : ChemGraph, (K.foldl (fun h i => h.removeAtomId i) g).bonds =
      K.foldl removeInner g.bonds := by
  induction K with
  | nil => intro g; rfl
  | cons k rest ih =>
    intro g
    rw [List.foldl_cons, List.foldl_cons, ih]
    rfl

theorem makeHydrogensImplicit_symm (g g2 : ChemGraph)
    (h : g.makeHydrogensImplicit = .ok g2) (hs : symmBonds g.bonds) :
    symmBonds g2.bonds := by
  unfold ChemGraph.makeHydrogensImplicit at h
  by_cases hall : g.atoms.all (fun a => a.isHydrogen) = true
  · rw [if_pos hall] at h
    injection h with h
    rw [← h]
    exact hs
  · rw [if_neg hall] at h
    cases hscan : implicitScan g.bonds g.atoms g.atoms [] with
    | error e => rw [hscan] at h; cases h
    | ok sh =>
      obtain ⟨store, hyds⟩ := sh
      rw [hscan] at h
      injection h with h
      rw [← h]
      show symmBonds (hyds.foldl (fun (h2 : ChemGraph) i => h2.removeAtomId i)
        { g with atoms := store }).bonds
      rw [fold_removeAtomId_bonds]
      exact symmBonds_foldl_removeInner hyds _ hs

theorem symm_import_inner (ob : OBMol) (i : Nat) (l : List Nat)
    (hl : ∀ j ∈ l, j < i) :
    ∀ B, symmBonds B → symmBonds (l.foldl (fun B j =>
      match ob.getBond i j with
      | none => B
      | some obb => setBondPair B i j ⟨classifyBond obb⟩) B) := by
  induction l with
  | nil => intro B h; exact h
  | cons j rest ih =>
    intro B h
    rw [List.foldl_cons]
    have hji : j < i := hl j (by simp)
    have hrest : ∀ j2 ∈ rest, j2 < i := fun j2 hj2 => hl j2 (by simp [hj2])
    cases hb : ob.getBond i j with
    | none => exact ih hrest B h
    | some obb =>
      exact ih hrest _ (symmBonds_setBondPair B i j _ (Nat.ne_of_gt hji) h)

theorem symmBonds_importStep (ob : OBMol) (g : ChemGraph) (i : Nat)
    (h : symmBonds g.bonds) : symmBonds (importStep ob g i).bonds := by
  cases hg : ob.obatoms.get? i with
  | none =>
    have he : importStep ob g i = g := by unfold importStep; rw [hg]
    rw [he]
    exact h
  | some oa =>
    have he : (importStep ob g i).bonds = (List.range i).foldl (fun B j =>
        match ob.getBond i j with
        | none => B
        | some obb => setBondPair B i j ⟨classifyBond obb⟩) g.bonds := by
      unfold importStep
      rw [hg]
    rw [he]
    exact symm_import_inner ob i (List.range i)
      (fun j hj => List.mem_range.mp hj) g.bonds h

theorem symmBonds_build (ob : OBMol) : symmBonds (buildChemGraph ob).bonds := by
  unfold buildChemGraph
  have : ∀ (l : List Nat) (g : ChemGraph), symmBonds g.bonds →
      symmBonds (l.foldl (importStep ob) g).bonds := by
    intro l
    induction l with
    | nil => intro g h; exact h
    | cons i rest ih =>
      intro g h
      exact ih _ (symmBonds_importStep ob g i h)
  exact this _ _ (fun a b bd hab => by cases hab)

end BondTableLemmas

/-- C7: every ChemGraph produced by a successful import stores its bonds
symmetrically: a bond stored under `(a, b)` is also stored under `(b, a)`
with the same value. -/
theorem c7_bond_symmetry (ob : OBMol) (m : Molecule)
    (h : fromOBMol ob = .ok m) (g : ChemGraph)
    (hg : g ∈ m.resonanceForms) (a b : Nat) (bd : Bond)
    (hab : bondValue g.bonds a b = some bd) :
    bondValue g.bonds b a = some bd := by
  unfold fromOBMol at h
  cases hi : (buildChemGraph ob).makeHydrogensImplicit with
  | error e => rw [hi] at h; cases h
  | ok g2 =>
    rw [hi] at h
    injection h with h
    rw [← h] at hg
    simp only [List.mem_singleton] at hg
    subst hg
    exact makeHydrogensImplicit_symm _ _ hi (symmBonds_build ob) a b bd hab

/-- C10: a copy of a ChemGraph, shallow or deep, always carries the
representation flag `false`; the source's flag is not carried over. -/
theorem c10_copy_flag_false (g : ChemGraph) (deep : Bool) :
    (g.copy deep).implicitHydrogens = false := rfl

/-- C9: constructing an atom from a symbol that the element registry does
not resolve fails with the configuration error. -/
theorem c9_unresolvable_symbol (s : String) (r sm ih ch : Int) (lbl : String)
    (i : Nat) (h : symbolGet symbolRegistry s = none) :
    atomFromSymbol s r sm ih ch lbl i = .error .configurationError := by
  unfold atomFromSymbol
  rw [h]

/-- Witness for C9 at the concrete unresolvable symbol `Xq`. -/
theorem c9_witness :
    symbolGet symbolRegistry "Xq" = none ∧
    atomFromSymbol "Xq" 0 1 0 0 "" 0 = .error .configurationError :=
  ⟨rfl, c9_unresolvable_symbol "Xq" 0 1 0 0 "" 0 rfl⟩

/-- C8: on an all-hydrogen graph, hydrogen compression is a no-op; in
particular both the atom count and the bond count are unchanged. -/
theorem c8_all_hydrogen_noop (g : ChemGraph)
    (h : g.atoms.all (fun a => a.isHydrogen) = true) :
    ∃ g2, g.makeHydrogensImplicit = .ok g2 ∧
      g2.atoms.length = g.atoms.length ∧
      bondEntryCount g2.bonds = bondEntryCount g.bonds := by
  refine ⟨g, ?_, rfl, rfl⟩
  unfold ChemGraph.makeHydrogensImplicit
  rw [if_pos h]

/-- Witness for C8 at the concrete two-atom hydrogen structure. -/
theorem c8_witness :
    gHH.atoms.all (fun a => a.isHydrogen) = true ∧
    ∃ g2, gHH.makeHydrogensImplicit = .ok g2 ∧
      g2.atoms.length = gHH.atoms.length ∧
      bondEntryCount g2.bonds = bondEntryCount gHH.bonds :=
  ⟨rfl, c8_all_hydrogen_noop gHH rfl⟩

theorem importStep_atoms (ob : OBMol) (g : ChemGraph) (i : Nat) (oa : OBAtom)
    (h : ob.obatoms.get? i = some oa) :
    (importStep ob g i).atoms = g.atoms ++ [mkImportAtom i oa] := by
  unfold importStep
  rw [h]

theorem buildAux (ob : OBMol) : ∀ n, n ≤ ob.obatoms.length →
    ((List.range n).foldl (importStep ob) ⟨[], [], false⟩).atoms.length = n ∧
    (∀ i oa, ob.obatoms.get? i = some oa → i < n →
      ((List.range n).foldl (importStep ob) ⟨[], [], false⟩).atoms.get? i =
        some (mkImportAtom i oa)) := by
  intro n
  induction n with
  | zero => exact fun _ => ⟨rfl, fun i oa _ hi => absurd hi (Nat.not_lt_zero i)⟩
  | succ n ih =>
    intro hn
    obtain ⟨hlen, hget⟩ := ih (Nat.le_of_succ_le hn)
    have hsome : ∃ oan, ob.obatoms.get? n = some oan := by
      cases hh : ob.obatoms.get? n with
      | none =>
        rw [List.get?_eq_none] at hh
        omega
      | some oan => exact ⟨oan, rfl⟩
    obtain ⟨oan, hoan⟩ := hsome
    rw [List.range_succ, List.foldl_append, List.foldl_cons, List.foldl_nil]
    constructor
    · rw [importStep_atoms ob _ n oan hoan, List.length_append, hlen]
      rfl
    · intro i oa hoa hi
      rw [importStep_atoms ob _ n oan hoan]
      rcases Nat.lt_succ_iff_lt_or_eq.mp hi with hi2 | hi2
      · rw [List.get?_append (by rw [hlen]; exact hi2)]
        exact hget i oa hoa hi2
      · subst hi2
        have h2 := List.get?_concat_length
          ((List.range i).foldl (importStep ob) ⟨[], [], false⟩).atoms
          (mkImportAtom i oan)
        rw [hlen] at h2
        rw [h2]
        rw [hoan] at hoa
        injection hoa with hoa
        rw [hoa]

/-- C1 (amended): during import, the spin code of every foreign atom is
decoded by the fixed table for the codes 0, 1, 2, 3; a code outside that
range raises nothing, and the atom keeps radicalElectrons 0 and the raw
foreign code as its spinMultiplicity. -/
theorem c1_spin_decode_amended (ob : OBMol) (i : Nat) (oa : OBAtom)
    (h : ob.obatoms.get? i = some oa) :
    ∃ a2, (buildChemGraph ob).atoms.get? i = some a2 ∧
      (oa.spinCode = 0 → a2.radicalElectrons = 0 ∧ a2.spinMultiplicity = 1) ∧
      (oa.spinCode = 1 → a2.radicalElectrons = 2 ∧ a2.spinMultiplicity = 1) ∧
      (oa.spinCode = 2 → a2.radicalElectrons = 1 ∧ a2.spinMultiplicity = 2) ∧
      (oa.spinCode = 3 → a2.radicalElectrons = 2 ∧ a2.spinMultiplicity = 3) ∧
      (oa.spinCode ≠ 0 → oa.spinCode ≠ 1 → oa.spinCode ≠ 2 → oa.spinCode ≠ 3 →
        a2.radicalElectrons = 0 ∧ a2.spinMultiplicity = oa.spinCode) := by
  have hi : i < ob.obatoms.length := by
    by_contra hc
    push_neg at hc
    rw [List.get?_eq_none.mpr hc] at h
    cases h
  obtain ⟨hlen, hget⟩ := buildAux ob ob.obatoms.length (le_refl _)
  refine ⟨mkImportAtom i oa, hget i oa h hi, ?_, ?_, ?_, ?_, ?_⟩
  · intro h0
    simp [mkImportAtom, decodeSpin, h0]
  · intro h1
    simp [mkImportAtom, decodeSpin, h1]
  · intro h2
    simp [mkImportAtom, decodeSpin, h2]
  · intro h3
    simp [mkImportAtom, decodeSpin, h3]
  · intro h0 h1 h2 h3
    simp [mkImportAtom, decodeSpin, h0, h1, h2, h3]

/-- Counterexample to C1 as stated: importing a foreign atom with the
unrecognized spin code 4 does not raise; the import succeeds and keeps the
raw code as the atom's spinMultiplicity. -/
theorem c1_counterexample :
    fromOBMol obSpin4 = .ok ⟨[⟨[⟨0, ⟨6, "C"⟩, 0, 4, 0, 0, ""⟩], [], true⟩]⟩ := rfl

/-- Witness for the amended C1 at the concrete recognized code 2. -/
theorem c1_spin_witness :
    obSpin2.obatoms.get? 0 = some ⟨6, 2, 0⟩ ∧
    ∃ a2, (buildChemGraph obSpin2).atoms.get? 0 = some a2 ∧
      a2.radicalElectrons = 1 ∧ a2.spinMultiplicity = 2 := by
  refine ⟨rfl, ?_⟩
  obtain ⟨a2, hg, _, _, h2, _, _⟩ := c1_spin_decode_amended obSpin2 0 ⟨6, 2, 0⟩ rfl
  exact ⟨a2, hg, (h2 rfl).1, (h2 rfl).2⟩

theorem isoLoopInner_iff (g : ChemGraph) (L : List ChemGraph) :
    isoLoopInner g L = true ↔ ∃ g2 ∈ L, g.isIsomorphicCG g2 = true := by
  induction L with
  | nil => simp [isoLoopInner]
  | cons g2 rest ih =>
    by_cases h : g.isIsomorphicCG g2 = true
    · simp [isoLoopInner, h]
    · simp [isoLoopInner, h, ih]

theorem isoLoopGraph_iff (L : List ChemGraph) (g : ChemGraph) :
    isoLoopGraph L g = true ↔ ∃ g1 ∈ L, g1.isIsomorphicCG g = true := by
  induction L with
  | nil => simp [isoLoopGraph]
  | cons g1 rest ih =>
    by_cases h : g1.isIsomorphicCG g = true
    · simp [isoLoopGraph, h]
    · simp [isoLoopGraph, h, ih]

theorem isoLoopOuter_iff (L others : List ChemGraph) :
    isoLoopOuter L others = true ↔
      ∃ g1 ∈ L, isoLoopInner g1 others = true := by
  induction L with
  | nil => simp [isoLoopOuter]
  | cons g1 rest ih =>
    by_cases h : isoLoopInner g1 others = true
    · simp [isoLoopOuter, h]
    · simp [isoLoopOuter, h, ih]

/-- C6: the isomorphism test over molecules is the existential match over
resonance forms; against a single ChemGraph it matches this molecule's
forms against it directly; any other argument type yields false rather
than raising. -/
theorem c6_isomorphic_existential (m : Molecule) (arg : MolArg) :
    m.isIsomorphic arg = true ↔
      (match arg with
       | .mol o => ∃ g1 ∈ m.resonanceForms, ∃ g2 ∈ o.resonanceForms,
           g1.isIsomorphicCG g2 = true
       | .graph g => ∃ g1 ∈ m.resonanceForms, g1.isIsomorphicCG g = true
       | .other _ => False) := by
  cases arg with
  | mol o =>
    show isoLoopOuter m.resonanceForms o.resonanceForms = true ↔ _
    rw [isoLoopOuter_iff]
    simp only [isoLoopInner_iff]
  | graph g =>
    show isoLoopGraph m.resonanceForms g = true ↔ _
    rw [isoLoopGraph_iff]
  | other s => simp [Molecule.isIsomorphic]

/-- Witness for C7 at a concrete foreign model: the carbon-oxygen import
succeeds and its stored single bond appears under both endpoint orders. -/
theorem c7_witness :
    fromOBMol obCO = .ok ⟨[gCOimp]⟩ ∧
    bondValue gCOimp.bonds 1 0 = some ⟨1⟩ ∧
    bondValue gCOimp.bonds 0 1 = some ⟨1⟩ := by
  refine ⟨rfl, rfl, ?_⟩
  exact c7_bond_symmetry obCO ⟨[gCOimp]⟩ rfl gCOimp
    (List.mem_singleton.mpr rfl) 1 0 ⟨1⟩ rfl

section ScanLemmas

theorem bumpBy_zero (a : Atom) : bumpBy a 0 = a := by
  simp [bumpBy]

theorem bumpBy_id (a : Atom) (n : Nat) : (bumpBy a n).id = a.id := rfl

theorem bumpBy_bumpBy (a : Atom) (m n : Nat) :
    bumpBy (bumpBy a m) n = bumpBy a (m + n) := by
  simp [bumpBy, add_assoc]

theorem increment_eq_map (S : List Atom) (i : Nat) :
    incrementImplicitH S i = S.map (fun a => if a.id = i then bumpBy a 1 else a) := by
  simp [incrementImplicitH, bumpBy]

theorem targetCount_nil (B : BondTable) (i : Nat) : targetCount B [] i = 0 := rfl

theorem targetCount_cons (B : BondTable) (a : Atom) (rest : List Atom) (i : Nat) :
    targetCount B (a :: rest) i = targetCount B rest i +
      (if a.isHydrogen && (headNeighborId B a.id == some i) then 1 else 0) := by
  simp [targetCount, List.countP_cons]

theorem hydIds_cons_hyd (a : Atom) (rest : List Atom) (h : a.isHydrogen = true) :
    hydIds (a :: rest) = a.id :: hydIds rest := by
  simp [hydIds, List.filter_cons, h]

theorem hydIds_cons_nonhyd (a : Atom) (rest : List Atom) (h : a.isHydrogen = false) :
    hydIds (a :: rest) = hydIds rest := by
  simp [hydIds, List.filter_cons, h]

theorem implicitScan_char (B : BondTable) :
    ∀ (L S : List Atom) (h : List Nat),
    (∀ a ∈ L, a.isHydrogen = true → (headNeighborId B a.id).isSome = true) →
    implicitScan B L S h =
      .ok (S.map (fun x => bumpBy x (targetCount B L x.id)), h ++ hydIds L) := by
  intro L
  induction L with
  | nil =>
    intro S h _
    simp [implicitScan, hydIds, targetCount, bumpBy_zero]
  | cons a rest ih =>
    intro S h hall
    by_cases hH : a.isHydrogen = true
    · have hs := hall a (by simp) hH
      cases hrow : dictGet B a.id with
      | none => rw [headNeighborId, hrow] at hs; simp at hs
      | some row =>
        cases hhead : row.head? with
        | none => rw [headNeighborId, hrow] at hs; simp [hhead] at hs
        | some nb =>
          have hnb : headNeighborId B a.id = some nb.1 := by
            rw [headNeighborId, hrow]
            simp [hhead]
          have hstep : implicitScan B (a :: rest) S h =
              implicitScan B rest (incrementImplicitH S nb.1) (h ++ [a.id]) := by
            simp [implicitScan, hH, hrow, hhead]
          rw [hstep, ih _ _ (fun x hx hxH => hall x (by simp [hx]) hxH)]
          rw [hydIds_cons_hyd a rest hH]
          refine congrArg _ ?_
          refine Prod.ext ?_ ?_
          · show (incrementImplicitH S nb.1).map _ = _
            rw [increment_eq_map, List.map_map]
            refine List.map_congr_left ?_
            intro x _
            show (fun y => bumpBy y (targetCount B rest y.id))
              (if x.id = nb.1 then bumpBy x 1 else x) = _
            rw [targetCount_cons]
            by_cases hxn : x.id = nb.1
            · rw [if_pos hxn]
              show bumpBy (bumpBy x 1) (targetCount B rest (bumpBy x 1).id) = _
              rw [bumpBy_id, bumpBy_bumpBy, hxn]
              have hcond : (a.isHydrogen && (headNeighborId B a.id == some nb.1)) = true := by
                rw [hH, hnb]
                simp
              rw [hcond]
              simp [Nat.add_comm]
            · rw [if_neg hxn]
              have hsx : (some nb.1 == some x.id) = false := by
                simp
                exact fun he => hxn he.symm
              have hcond : (a.isHydrogen && (headNeighborId B a.id == some x.id)) = false := by
                rw [hnb, hsx, Bool.and_false]
              rw [hcond]
              simp
          · show h ++ [a.id] ++ hydIds rest = h ++ (a.id :: hydIds rest)
            simp
    · have hHf : a.isHydrogen = false := by
        cases hv : a.isHydrogen
        · rfl
        · exact absurd hv hH
      have hstep : implicitScan B (a :: rest) S h = implicitScan B rest S h := by
        simp [implicitScan, hHf]
      rw [hstep, ih _ _ (fun x hx hxH => hall x (by simp [hx]) hxH)]
      rw [hydIds_cons_nonhyd a rest hHf]
      refine congrArg _ ?_
      refine Prod.ext ?_ rfl
      show S.map _ = _
      refine List.map_congr_left ?_
      intro x _
      rw [targetCount_cons]
      have hcond : (a.isHydrogen && (headNeighborId B a.id == some x.id)) = false := by
        rw [hHf]
        simp
      rw [hcond]
      simp

end ScanLemmas

section RemovalLemmas

theorem atomIds_map_bump (A : List Atom) (c : Nat → Nat) :
    atomIds (A.map (fun x => bumpBy x (c x.id))) = atomIds A := by
  unfold atomIds
  rw [List.map_map]
  refine List.map_congr_left ?_
  intro a _
  rfl

theorem eraseAtomId_eq_filter (A : List Atom) (i : Nat)
    (hnd : (atomIds A).Nodup) :
    eraseAtomId A i = A.filter (fun a => a.id != i) := by
  induction A with
  | nil => rfl
  | cons a rest ih =>
    rw [atomIds, List.map_cons, List.nodup_cons] at hnd
    by_cases ha : a.id = i
    · have hcond : (a.id != i) = false := by simp [ha]
      rw [eraseAtomId, if_pos ha, List.filter_cons, hcond]
      simp only [Bool.false_eq_true, if_false]
      have : ∀ b ∈ rest, (b.id != i) = true := by
        intro b hb
        simp only [bne_iff_ne, ne_eq]
        intro he
        exact hnd.1 (by rw [ha, ← he]; exact List.mem_map_of_mem _ hb)
      exact (List.filter_eq_self.mpr this).symm
    · have hcond : (a.id != i) = true := by simp [ha]
      rw [eraseAtomId, if_neg ha, List.filter_cons, hcond]
      simp only [if_true]
      rw [ih hnd.2]

theorem nodup_atomIds_filter (A : List Atom) (p : Atom → Bool)
    (hnd : (atomIds A).Nodup) : (atomIds (A.filter p)).Nodup := by
  have hsub : List.Sublist (A.filter p) A := List.filter_sublist A
  unfold atomIds at hnd ⊢
  exact (hsub.map (fun a => a.id)).nodup hnd

theorem foldl_eraseAtomId_char (K : List Nat) :
    ∀ A : List Atom, (atomIds A).Nodup →
      K.foldl eraseAtomId A = A.filter (fun a => decide (a.id ∉ K)) := by
  induction K with
  | nil =>
    intro A _
    have : ∀ a ∈ A, decide (a.id ∉ ([] : List Nat)) = true := by
      intro a _
      simp
    rw [List.foldl_nil, List.filter_eq_self.mpr this]
  | cons k ks ih =>
    intro A hnd
    rw [List.foldl_cons, eraseAtomId_eq_filter A k hnd,
      ih _ (nodup_atomIds_filter A _ hnd), List.filter_filter]
    refine List.filter_congr ?_
    intro a _
    by_cases h1 : a.id = k
    · simp [h1]
    · by_cases h2 : a.id ∈ ks <;> simp [h1, h2]

theorem foldl_removeInner_char (K : List Nat) :
    ∀ B : BondTable,
      K.foldl removeInner B =
        (B.filter (fun p => decide (p.1 ∉ K))).map
          (fun p => (p.1, p.2.filter (fun q => decide (q.1 ∉ K)))) := by
  induction K with
  | nil =>
    intro B
    have h1 : ∀ p ∈ B, decide ((p : Nat × BondRow).1 ∉ ([] : List Nat)) = true := by
      intro p _
      simp
    rw [List.foldl_nil, List.filter_eq_self.mpr h1]
    have h2 : ∀ p ∈ B, ((p : Nat × BondRow).1, p.2.filter
        (fun q => decide (q.1 ∉ ([] : List Nat)))) = p := by
      intro p _
      have : ∀ q ∈ p.2, (decide ((q : Nat × Bond).1 ∉ ([] : List Nat))) = true := by
        intro q _
        simp
      rw [List.filter_eq_self.mpr this]
    have h3 : B.map (fun p => (p.1, p.2.filter
        (fun q => decide (q.1 ∉ ([] : List Nat))))) = B := by
      calc B.map (fun p => (p.1, p.2.filter (fun q => decide (q.1 ∉ ([] : List Nat)))))
          = B.map id := List.map_congr_left h2
        _ = B := List.map_id B
    exact h3.symm
  | cons k ks ih =>
    intro B
    rw [List.foldl_cons, ih]
    unfold removeInner
    rw [List.filter_map, List.map_map, List.filter_filter]
    have hpred : ∀ p ∈ B, (((fun x => decide ((x : Nat × BondRow).1 ∉ ks)) ∘
        (fun p => (p.1, p.2.filter (fun q => q.1 != k)))) p
          && (p.1 != k)) = decide (p.1 ∉ k :: ks) := by
      intro p _
      simp only [Function.comp]
      by_cases h1 : p.1 = k
      · simp [h1]
      · by_cases h2 : p.1 ∈ ks <;> simp [h1, h2]
    rw [List.filter_congr hpred]
    refine List.map_congr_left ?_
    intro p _
    simp only [Function.comp]
    refine congrArg (fun r => (p.1, r)) ?_
    rw [List.filter_filter]
    refine List.filter_congr ?_
    intro q _
    by_cases h1 : q.1 = k
    · simp [h1]
    · by_cases h2 : q.1 ∈ ks <;> simp [h1, h2]

theorem fold_removeAtomId_atoms (K : List Nat) :
    ∀ g : ChemGraph, (K.foldl (fun h i => h.removeAtomId i) g).atoms =
      K.foldl eraseAtomId g.atoms := by
  induction K with
  | nil => intro g; rfl
  | cons k rest ih =>
    intro g
    rw [List.foldl_cons, List.foldl_cons, ih]
    rfl

end RemovalLemmas

section ImplicitChar

theorem makeHydrogensImplicit_char (A : List Atom) (B : BondTable) (fl : Bool)
    (hnd : (atomIds A).Nodup)
    (hsome : ∃ a ∈ A, a.isHydrogen = false)
    (hrows : ∀ a ∈ A, a.isHydrogen = true → (headNeighborId B a.id).isSome = true) :
    ChemGraph.makeHydrogensImplicit ⟨A, B, fl⟩ =
      .ok ⟨(A.map (fun x => bumpBy x (targetCount B A x.id))).filter
             (fun a => decide (a.id ∉ hydIds A)),
           (B.filter (fun p => decide (p.1 ∉ hydIds A))).map
             (fun p => (p.1, p.2.filter (fun q => decide (q.1 ∉ hydIds A)))),
           true⟩ := by
  have hall : ¬ ((⟨A, B, fl⟩ : ChemGraph).atoms.all (fun a => a.isHydrogen) = true) := by
    obtain ⟨a, ha, hf⟩ := hsome
    intro hc
    rw [List.all_eq_true] at hc
    rw [hc a ha] at hf
    cases hf
  unfold ChemGraph.makeHydrogensImplicit
  rw [if_neg hall]
  have hscan := implicitScan_char B A A [] hrows
  rw [List.nil_append] at hscan
  simp only [hscan]
  have hnd2 : (atomIds (A.map (fun x => bumpBy x (targetCount B A x.id)))).Nodup := by
    rw [atomIds_map_bump]
    exact hnd
  have hatoms : ((hydIds A).foldl (fun (h : ChemGraph) i => h.removeAtomId i)
      { (⟨A, B, fl⟩ : ChemGraph) with
        atoms := A.map (fun x => bumpBy x (targetCount B A x.id)) }).atoms =
      (A.map (fun x => bumpBy x (targetCount B A x.id))).filter
        (fun a => decide (a.id ∉ hydIds A)) := by
    rw [fold_removeAtomId_atoms]
    exact foldl_eraseAtomId_char (hydIds A) _ hnd2
  have hbonds : ((hydIds A).foldl (fun (h : ChemGraph) i => h.removeAtomId i)
      { (⟨A, B, fl⟩ : ChemGraph) with
        atoms := A.map (fun x => bumpBy x (targetCount B A x.id)) }).bonds =
      (B.filter (fun p => decide (p.1 ∉ hydIds A))).map
        (fun p => (p.1, p.2.filter (fun q => decide (q.1 ∉ hydIds A)))) := by
    rw [fold_removeAtomId_bonds]
    exact foldl_removeInner_char (hydIds A) B
  rw [hatoms, hbonds]

theorem filter_map_by_id (A : List Atom) (c : Nat → Nat) (q : Nat → Bool) :
    (A.map (fun x => bumpBy x (c x.id))).filter (fun a => q a.id) =
      (A.filter (fun a => q a.id)).map (fun x => bumpBy x (c x.id)) := by
  rw [List.filter_map]
  refine congrArg _ ?_
  refine List.filter_congr ?_
  intro a _
  rfl

theorem filter_notin_hydIds (A : List Atom) (hnd : (atomIds A).Nodup) :
    A.filter (fun a => decide (a.id ∉ hydIds A)) =
      A.filter (fun a => !a.isHydrogen) := by
  refine List.filter_congr ?_
  intro a ha
  by_cases hH : a.isHydrogen = true
  · have hmem : a.id ∈ hydIds A := by
      unfold hydIds
      exact List.mem_map_of_mem _ (List.mem_filter.mpr ⟨ha, hH⟩)
    simp [hmem, hH]
  · have hmem : a.id ∉ hydIds A := by
      unfold hydIds
      intro hmem
      rw [List.mem_map] at hmem
      obtain ⟨b, hb, hbid⟩ := hmem
      rw [List.mem_filter] at hb
      have hba : b = a := by
        refine List.inj_on_of_nodup_map hnd hb.1 ha hbid
      rw [hba] at hb
      exact hH hb.2
    have hHf : (!a.isHydrogen) = true := by
      cases hv : a.isHydrogen
      · rfl
      · exact absurd hv hH
    simp [hmem, hHf]

/-- C2 (amended): hydrogen compression never raises a degree check: on a
graph with a heavy atom where every hydrogen vertex has at least one bond
entry, the call succeeds — a hydrogen of degree two or more is silently
compressed onto its first-listed neighbor instead of raising — and the
result keeps exactly the non-hydrogen atoms, each bumped by the number of
hydrogens whose first-listed neighbor it was. -/
theorem c2_degree_amended (g : ChemGraph)
    (hnd : (atomIds g.atoms).Nodup)
    (hsome : ∃ a ∈ g.atoms, a.isHydrogen = false)
    (hrows : ∀ a ∈ g.atoms, a.isHydrogen = true →
      (headNeighborId g.bonds a.id).isSome = true) :
    ∃ g2, g.makeHydrogensImplicit = .ok g2 ∧
      g2.atoms = (g.atoms.filter (fun a => !a.isHydrogen)).map
        (fun x => bumpBy x (targetCount g.bonds g.atoms x.id)) := by
  have hchar := makeHydrogensImplicit_char g.atoms g.bonds g.implicitHydrogens
    hnd hsome hrows
  refine ⟨⟨(g.atoms.map (fun x => bumpBy x (targetCount g.bonds g.atoms x.id))).filter
      (fun a => decide (a.id ∉ hydIds g.atoms)),
    (g.bonds.filter (fun p => decide (p.1 ∉ hydIds g.atoms))).map
      (fun p => (p.1, p.2.filter (fun q => decide (q.1 ∉ hydIds g.atoms)))),
    true⟩, hchar, ?_⟩
  show ((g.atoms.map (fun x => bumpBy x (targetCount g.bonds g.atoms x.id))).filter
    (fun a => decide (a.id ∉ hydIds g.atoms))) = _
  rw [filter_map_by_id g.atoms _ (fun i => decide (i ∉ hydIds g.atoms)),
    filter_notin_hydIds g.atoms hnd]

/-- Counterexample to C2 as stated: compressing a graph whose hydrogen
vertex has degree 2 succeeds silently — the first-listed neighbor receives
the counter and the second bond disappears — instead of raising. -/
theorem c2_counterexample :
    gDegTwo.makeHydrogensImplicit =
      .ok ⟨[⟨0, ⟨6, "C"⟩, 0, 1, 1, 0, ""⟩, ⟨1, ⟨6, "C"⟩, 0, 1, 0, 0, ""⟩],
        [(0, []), (1, [])], true⟩ := rfl

/-- Witness for the amended C2 at a concrete graph with one hydrogen of
degree 1 attached to a carbon. -/
theorem c2_witness :
    (∃ a ∈ gCH.atoms, a.isHydrogen = false) ∧
    ∃ g2, gCH.makeHydrogensImplicit = .ok g2 ∧
      g2.atoms = (gCH.atoms.filter (fun a => !a.isHydrogen)).map
        (fun x => bumpBy x (targetCount gCH.bonds gCH.atoms x.id)) := by
  refine ⟨⟨cAtom 0 0, by simp [gCH], rfl⟩, ?_⟩
  exact c2_degree_amended gCH (by decide) ⟨cAtom 0 0, by simp [gCH], rfl⟩
    (by decide)

end ImplicitChar

section PlanLemmas

theorem countP_map_eq {α β : Type} (l : List α) (f : α → β) (p : β → Bool) :
    (l.map f).countP p = l.countP (fun x => p (f x)) := by
  induction l with
  | nil => rfl
  | cons a rest ih => simp [List.countP_cons, ih]

theorem planHydrogens_fst (A : List Atom) :
    ∀ base, (planHydrogens A base).1 = A.map zeroCounter := by
  induction A with
  | nil => intro base; rfl
  | cons a rest ih =>
    intro base
    simp [planHydrogens, ih]

theorem plans_fst_eq_range (A : List Atom) :
    ∀ base, ((planHydrogens A base).2).map (fun p => p.1) =
      List.range' base (totalH A) := by
  induction A with
  | nil => intro base; simp [planHydrogens, totalH]
  | cons a rest ih =>
    intro base
    show ((List.range a.implicitHydrogens.toNat).map
        (fun k => (base + k, a.id)) ++
        (planHydrogens rest (base + a.implicitHydrogens.toNat)).2).map
        (fun p => p.1) = _
    rw [List.map_append, List.map_map, ih]
    have h1 : ((fun (p : Nat × Nat) => p.1) ∘ (fun k => (base + k, a.id))) =
        (fun k => base + k) := rfl
    rw [h1]
    have h2 : (List.range a.implicitHydrogens.toNat).map (fun k => base + k) =
        List.range' base a.implicitHydrogens.toNat :=
      (List.range'_eq_map_range base a.implicitHydrogens.toNat).symm
    rw [h2, List.range'_append_1]
    refine congrArg (List.range' base) ?_
    simp [totalH, Nat.add_comm]

theorem plans_target_mem (A : List Atom) :
    ∀ base, ∀ p ∈ (planHydrogens A base).2,
      ∃ a ∈ A, p.2 = a.id ∧ 0 < a.implicitHydrogens := by
  induction A with
  | nil => intro base p hp; cases hp
  | cons a rest ih =>
    intro base p hp
    show ∃ b ∈ a :: rest, p.2 = b.id ∧ 0 < b.implicitHydrogens
    have hp2 : p ∈ (List.range a.implicitHydrogens.toNat).map
        (fun k => (base + k, a.id)) ++
        (planHydrogens rest (base + a.implicitHydrogens.toNat)).2 := hp
    rw [List.mem_append] at hp2
    rcases hp2 with hp2 | hp2
    · rw [List.mem_map] at hp2
      obtain ⟨k, hk, hke⟩ := hp2
      refine ⟨a, by simp, ?_, ?_⟩
      · rw [← hke]
      · rw [List.mem_range] at hk
        omega
    · obtain ⟨b, hb, hbp⟩ := ih _ p hp2
      exact ⟨b, by simp [hb], hbp⟩

theorem plans_countP_target (A : List Atom) :
    ∀ base, (atomIds A).Nodup → ∀ a ∈ A,
      ((planHydrogens A base).2.countP (fun p => p.2 == a.id)) =
        a.implicitHydrogens.toNat := by
  induction A with
  | nil => intro base _ a ha; cases ha
  | cons b rest ih =>
    intro base hnd a ha
    rw [atomIds, List.map_cons, List.nodup_cons] at hnd
    have hstep : (planHydrogens (b :: rest) base).2 =
        (List.range b.implicitHydrogens.toNat).map (fun k => (base + k, b.id)) ++
        (planHydrogens rest (base + b.implicitHydrogens.toNat)).2 := rfl
    rw [hstep, List.countP_append, countP_map_eq]
    rcases List.mem_cons.mp ha with ha2 | ha2
    · subst ha2
      have hhead : List.countP
          (fun k => ((base + k, a.id) : Nat × Nat).2 == a.id)
          (List.range a.implicitHydrogens.toNat) =
          a.implicitHydrogens.toNat := by
        have hall : ∀ k ∈ List.range a.implicitHydrogens.toNat,
            ((fun k => ((base + k, a.id) : Nat × Nat).2 == a.id) k) = true := by
          intro k _
          simp
        rw [List.countP_eq_length.mpr hall, List.length_range]
      have hrest : List.countP (fun p => p.2 == a.id)
          (planHydrogens rest (base + a.implicitHydrogens.toNat)).2 = 0 := by
        rw [List.countP_eq_zero]
        intro p hp
        obtain ⟨c, hc, hcp, _⟩ := plans_target_mem rest _ p hp
        simp only [beq_iff_eq]
        rw [hcp]
        intro he
        exact hnd.1 (by rw [← he]; exact List.mem_map_of_mem _ hc)
      rw [hhead, hrest]
      omega
    · have hbid : b.id ≠ a.id := by
        intro he
        exact hnd.1 (by rw [he]; exact List.mem_map_of_mem _ ha2)
      have hhead : List.countP
          (fun k => ((base + k, b.id) : Nat × Nat).2 == a.id)
          (List.range b.implicitHydrogens.toNat) = 0 := by
        rw [List.countP_eq_zero]
        intro k _
        simp only [beq_iff_eq]
        exact hbid
      rw [hhead, ih _ hnd.2 a ha2]
      omega

end PlanLemmas

section MoreDictLemmas

theorem dictGet_some_mem {α : Type} (l : List (Nat × α)) (k : Nat) (v : α)
    (h : dictGet l k = some v) : (k, v) ∈ l := by
  induction l with
  | nil => cases h
  | cons p rest ih =>
    by_cases hp : p.1 = k
    · rw [dictGet, if_pos hp] at h
      injection h with h
      exact List.mem_cons.mpr (Or.inl (by rw [← hp, ← h]))
    · rw [dictGet, if_neg hp] at h
      exact List.mem_cons_of_mem p (ih h)

theorem dictGet_eq_of_mem_nodup {α : Type} (l : List (Nat × α)) (k : Nat) (v : α)
    (hnd : (keysOf l).Nodup) (hmem : (k, v) ∈ l) : dictGet l k = some v := by
  induction l with
  | nil => cases hmem
  | cons p rest ih =>
    rw [keysOf, List.map_cons, List.nodup_cons] at hnd
    rcases List.mem_cons.mp hmem with hm | hm
    · rw [← hm]
      simp [dictGet]
    · have hp : p.1 ≠ k := by
        intro he
        refine hnd.1 ?_
        rw [he]
        exact List.mem_map_of_mem _ hm
      rw [dictGet, if_neg hp]
      exact ih hnd.2 hm

theorem mem_dictSet {α : Type} (l : List (Nat × α)) (k : Nat) (v : α) (q : Nat × α)
    (h : q ∈ dictSet l k v) : q ∈ l ∨ q = (k, v) := by
  induction l with
  | nil =>
    rw [dictSet] at h
    rcases List.mem_singleton.mp h with he
    exact Or.inr he
  | cons p rest ih =>
    by_cases hp : p.1 = k
    · rw [dictSet, if_pos hp] at h
      rcases List.mem_cons.mp h with hm | hm
      · exact Or.inr hm
      · exact Or.inl (List.mem_cons_of_mem p hm)
    · rw [dictSet, if_neg hp] at h
      rcases List.mem_cons.mp h with hm | hm
      · exact Or.inl (by rw [hm]; simp)
      · rcases ih hm with hm2 | hm2
        · exact Or.inl (List.mem_cons_of_mem p hm2)
        · exact Or.inr hm2

theorem dictSet_eq_map_of_nodup {α : Type} (l : List (Nat × α)) (t : Nat) (v : α)
    (hnd : (keysOf l).Nodup) (hmem : t ∈ keysOf l) :
    dictSet l t v = l.map (fun p => if p.1 = t then (t, v) else p) := by
  induction l with
  | nil => cases hmem
  | cons p rest ih =>
    rw [keysOf, List.map_cons, List.nodup_cons] at hnd
    by_cases hp : p.1 = t
    · rw [dictSet, if_pos hp, List.map_cons, if_pos hp]
      have : ∀ q ∈ rest, (if (q : Nat × α).1 = t then (t, v) else q) = q := by
        intro q hq
        rw [if_neg ?_]
        intro he
        refine hnd.1 ?_
        rw [hp, ← he]
        exact List.mem_map_of_mem _ hq
      rw [List.map_congr_left this]
      simp
    · rw [keysOf] at hmem
      rcases List.mem_cons.mp hmem with hm | hm
      · exact absurd hm.symm hp
      · rw [dictSet, if_neg hp, List.map_cons, if_neg hp,
          ih hnd.2 (by rw [keysOf]; exact hm)]

theorem ensureRow_of_some (B : BondTable) (x : Nat) (r : BondRow)
    (h : dictGet B x = some r) : ensureRow B x = B := by
  unfold ensureRow
  rw [h]

end MoreDictLemmas

section ApplyPlans

theorem keysOf_append {α : Type} (l m : List (Nat × α)) :
    keysOf (l ++ m) = keysOf l ++ keysOf m := by
  simp [keysOf]

theorem dictSet_append_right {α : Type} (l m : List (Nat × α)) (k : Nat) (v : α)
    (h : k ∉ keysOf l) : dictSet (l ++ m) k v = l ++ dictSet m k v := by
  induction l with
  | nil => simp
  | cons p rest ih =>
    simp only [keysOf, List.map_cons, List.mem_cons] at h
    push_neg at h
    have h1 : ¬p.1 = k := fun he => h.1 he.symm
    simp only [List.cons_append, dictSet, if_neg h1, List.cons.injEq, true_and]
    exact ih (by simpa [keysOf] using h.2)

theorem applyPlans_char :
    ∀ (P : List (Nat × Nat)) (S : List Atom) (T : BondTable) (fl : Bool),
    (keysOf T).Nodup →
    (∀ p ∈ P, p.1 ∉ keysOf T) →
    (∀ p ∈ P, ∀ q ∈ T, ∀ r ∈ q.2, p.1 ≠ r.1) →
    ((P.map (fun p => p.1)).Nodup) →
    (∀ p ∈ P, p.2 ∈ keysOf T) →
    (∀ p ∈ P, ∀ q ∈ P, p.1 ≠ q.2) →
    P.foldl (fun (g : ChemGraph) p => (g.addAtom (mkH p.1)).addBond p.1 p.2 ⟨1⟩)
        ⟨S, T, fl⟩ =
      ⟨S ++ P.map (fun p => mkH p.1), addPlanEntries T P ++ planRows P, fl⟩ := by
  intro P
  induction P with
  | nil =>
    intro S T fl _ _ _ _ _ _
    rw [List.foldl_nil]
    have h1 : addPlanEntries T [] = T := by
      unfold addPlanEntries planEntriesFor
      have h2 : ∀ p ∈ T, ((p : Nat × BondRow).1, p.2 ++
          (List.filter (fun p2 => p2.2 == p.1) ([] : List (Nat × Nat))).map
            (fun p2 => (p2.1, (⟨1⟩ : Bond)))) = p := by
        intro p _
        simp
      rw [List.map_congr_left h2]
      simp
    rw [h1]
    simp [planRows]
  | cons pq P2 ih =>
    obtain ⟨h, t⟩ := pq
    intro S T fl hndT hfreshK hfreshR hndP htgt hnotTgt
    have hmem0 : ((h, t) : Nat × Nat) ∈ (h, t) :: P2 := by simp
    have hhT : h ∉ keysOf T := hfreshK (h, t) hmem0
    have htT : t ∈ keysOf T := htgt (h, t) hmem0
    have hht : h ≠ t := fun he => hhT (he ▸ htT)
    have htsome : ∃ rt, dictGet T t = some rt := by
      have hs := (dictGet_isSome_iff T t).mpr htT
      cases hg : dictGet T t with
      | none => rw [hg] at hs; cases hs
      | some r => exact ⟨r, rfl⟩
    obtain ⟨rt, hrt⟩ := htsome
    have hrtmem : (t, rt) ∈ T := dictGet_some_mem T t rt hrt
    have hhrt : h ∉ keysOf rt := by
      intro hmem
      rw [keysOf, List.mem_map] at hmem
      obtain ⟨r, hr, hre⟩ := hmem
      exact hfreshR (h, t) hmem0 (t, rt) hrtmem r hr hre.symm
    have hhP2 : ∀ p ∈ P2, p.1 ≠ h := by
      intro p hp he
      rw [List.map_cons, List.nodup_cons] at hndP
      have h1 : h ∉ List.map (fun (p : Nat × Nat) => p.1) P2 := by
        have h2 := hndP.1
        simpa using h2
      exact h1 (he ▸ List.mem_map_of_mem _ hp)
    have hT1 : dictSet T h ([] : BondRow) = T ++ [(h, [])] :=
      dictSet_not_mem T h [] hhT
    have hgetTTh : dictGet (T ++ [(h, ([] : BondRow))]) h = some [] := by
      rw [dictGet_append_right T _ h hhT]
      simp [dictGet]
    have hgetTTt : dictGet (T ++ [(h, ([] : BondRow))]) t = some rt := by
      rw [dictGet_append_left T _ t htT]
      exact hrt
    have hens : ensureRow (ensureRow (T ++ [(h, ([] : BondRow))]) h) t =
        T ++ [(h, [])] := by
      rw [ensureRow_of_some _ _ _ hgetTTh, ensureRow_of_some _ _ _ hgetTTt]
    have hsre1 : setRowEntry (T ++ [(h, ([] : BondRow))]) h t ⟨1⟩ =
        T ++ [(h, [(t, ⟨1⟩)])] := by
      unfold setRowEntry
      rw [hgetTTh, dictSet_append_right T _ h _ hhT]
      simp [dictSet]
    have hget2t : dictGet (T ++ [(h, [(t, (⟨1⟩ : Bond))])]) t = some rt := by
      rw [dictGet_append_left T _ t htT]
      exact hrt
    have hsre2 : setRowEntry (T ++ [(h, [(t, (⟨1⟩ : Bond))])]) t h ⟨1⟩ =
        dictSet T t (rt ++ [(h, ⟨1⟩)]) ++ [(h, [(t, ⟨1⟩)])] := by
      unfold setRowEntry
      rw [hget2t]
      have hin : dictSet ((some rt).getD []) h (⟨1⟩ : Bond) = rt ++ [(h, ⟨1⟩)] := by
        simp only [Option.getD_some]
        exact dictSet_not_mem rt h ⟨1⟩ hhrt
      rw [hin, dictSet_append_left T _ t _ htT]
    have hstep : ((⟨S, T, fl⟩ : ChemGraph).addAtom (mkH h)).addBond h t ⟨1⟩ =
        ⟨S ++ [mkH h], dictSet T t (rt ++ [(h, ⟨1⟩)]) ++ [(h, [(t, ⟨1⟩)])], fl⟩ := by
      show (⟨S ++ [mkH h], setBondPair (dictSet T h []) h t ⟨1⟩, fl⟩ : ChemGraph) = _
      rw [hT1]
      unfold setBondPair
      rw [hens, hsre1, hsre2]
    have hkeysT2 : keysOf (dictSet T t (rt ++ [(h, (⟨1⟩ : Bond))]) ++
        [(h, [(t, ⟨1⟩)])]) = keysOf T ++ [h] := by
      rw [keysOf_append, keysOf_dictSet_mem T t _ htT]
      rfl
    rw [List.foldl_cons, hstep,
      ih (S ++ [mkH h])
        (dictSet T t (rt ++ [(h, (⟨1⟩ : Bond))]) ++ [(h, [(t, (⟨1⟩ : Bond))])]) fl
        (by
          rw [hkeysT2, List.nodup_append]
          refine ⟨hndT, List.nodup_singleton h, ?_⟩
          intro x hx hx2
          rw [List.mem_singleton] at hx2
          rw [hx2] at hx
          exact hhT hx)
        (by
          intro p hp hmem
          rw [hkeysT2, List.mem_append, List.mem_singleton] at hmem
          rcases hmem with hmem | hmem
          · exact hfreshK p (List.mem_cons_of_mem _ hp) hmem
          · exact hhP2 p hp hmem)
        (by
          intro p hp q hq r hr
          rw [List.mem_append] at hq
          rcases hq with hq | hq
          · rcases mem_dictSet T t _ q hq with hq2 | hq2
            · exact hfreshR p (List.mem_cons_of_mem _ hp) q hq2 r hr
            · rw [hq2] at hr
              rw [List.mem_append, List.mem_singleton] at hr
              rcases hr with hr | hr
              · exact hfreshR p (List.mem_cons_of_mem _ hp) (t, rt) hrtmem r hr
              · rw [hr]
                exact hhP2 p hp
          · rw [List.mem_singleton] at hq
            rw [hq] at hr
            rw [List.mem_singleton] at hr
            rw [hr]
            exact hnotTgt p (List.mem_cons_of_mem _ hp) (h, t) hmem0)
        (by
          rw [List.map_cons, List.nodup_cons] at hndP
          exact hndP.2)
        (by
          intro p hp
          rw [hkeysT2, List.mem_append]
          exact Or.inl (htgt p (List.mem_cons_of_mem _ hp)))
        (fun p hp q hq => hnotTgt p (List.mem_cons_of_mem _ hp) q
          (List.mem_cons_of_mem _ hq))]
    have hat : (S ++ [mkH h]) ++ P2.map (fun p => mkH p.1) =
        S ++ ((h, t) :: P2).map (fun p => mkH p.1) := by
      simp
    have hpeP2h : planEntriesFor P2 h = [] := by
      unfold planEntriesFor
      have hnone : ∀ p ∈ P2, ¬((fun p2 => p2.2 == h) p = true) := by
        intro p hp hc
        rw [beq_iff_eq] at hc
        exact hnotTgt (h, t) hmem0 p (List.mem_cons_of_mem _ hp) hc.symm
      rw [List.filter_eq_nil.mpr hnone]
      rfl
    have hbd : addPlanEntries (dictSet T t (rt ++ [(h, ⟨1⟩)]) ++
        [(h, [(t, ⟨1⟩)])]) P2 ++ planRows P2 =
        addPlanEntries T ((h, t) :: P2) ++ planRows ((h, t) :: P2) := by
      unfold addPlanEntries
      rw [List.map_append]
      have hsingle : ([(h, [(t, (⟨1⟩ : Bond))])].map
          (fun p => (p.1, p.2 ++ planEntriesFor P2 p.1))) = [(h, [(t, ⟨1⟩)])] := by
        simp [hpeP2h]
      rw [hsingle]
      have hmain : (dictSet T t (rt ++ [(h, (⟨1⟩ : Bond))])).map
          (fun p => (p.1, p.2 ++ planEntriesFor P2 p.1)) =
          T.map (fun p => (p.1, p.2 ++ planEntriesFor ((h, t) :: P2) p.1)) := by
        rw [dictSet_eq_map_of_nodup T t _ hndT htT, List.map_map]
        refine List.map_congr_left ?_
        intro p hpT
        simp only [Function.comp]
        by_cases hpt : p.1 = t
        · rw [if_pos hpt]
          have hm2 : (t, p.2) ∈ T := by
            rw [← hpt]
            exact hpT
          have hde := dictGet_eq_of_mem_nodup T t p.2 hndT hm2
          rw [hrt] at hde
          injection hde with hde
          have hpec : planEntriesFor ((h, t) :: P2) t =
              (h, ⟨1⟩) :: planEntriesFor P2 t := by
            unfold planEntriesFor
            rw [List.filter_cons]
            simp
          rw [hpt, hpec, ← hde]
          simp
        · rw [if_neg hpt]
          have hpec : planEntriesFor ((h, t) :: P2) p.1 =
              planEntriesFor P2 p.1 := by
            unfold planEntriesFor
            rw [List.filter_cons]
            have hf : (((h, t) : Nat × Nat).2 == p.1) = false := by
              simp
              exact fun he => hpt he.symm
            rw [hf]
            simp
          rw [hpec]
      rw [hmain, List.append_assoc]
      rfl
    rw [hat, hbd]

end ApplyPlans

section ExplicitChar

theorem mem_le_foldr_max (l : List Nat) : ∀ x ∈ l, x ≤ l.foldr max 0 := by
  induction l with
  | nil => intro x hx; cases hx
  | cons a rest ih =>
    intro x hx
    rcases List.mem_cons.mp hx with hx | hx
    · rw [hx, List.foldr_cons]
      exact Nat.le_max_left _ _
    · rw [List.foldr_cons]
      exact le_trans (ih x hx) (Nat.le_max_right _ _)

theorem atomIds_lt_freshBase (g : ChemGraph) :
    ∀ i ∈ atomIds g.atoms, i < freshBase g := by
  intro i hi
  unfold freshBase
  exact Nat.lt_succ_of_le (mem_le_foldr_max _ i hi)

theorem atomIds_map_zero (A : List Atom) :
    atomIds (A.map zeroCounter) = atomIds A := by
  unfold atomIds
  rw [List.map_map]
  refine List.map_congr_left ?_
  intro a _
  rfl

theorem addPlanEntries_nil (T : BondTable) : addPlanEntries T [] = T := by
  unfold addPlanEntries planEntriesFor
  have h2 : ∀ p ∈ T, ((p : Nat × BondRow).1, p.2 ++
      (List.filter (fun p2 => p2.2 == p.1) ([] : List (Nat × Nat))).map
        (fun p2 => (p2.1, (⟨1⟩ : Bond)))) = p := by
    intro p _
    simp
  rw [List.map_congr_left h2]
  simp

theorem keysOf_addPlanEntries (T : BondTable) (P : List (Nat × Nat)) :
    keysOf (addPlanEntries T P) = keysOf T := by
  unfold keysOf addPlanEntries
  rw [List.map_map]
  refine List.map_congr_left ?_
  intro p _
  rfl

theorem hydIds_append (X Y : List Atom) :
    hydIds (X ++ Y) = hydIds X ++ hydIds Y := by
  unfold hydIds
  rw [List.filter_append, List.map_append]

theorem countP_congr_mem {α : Type} (l : List α) (p q : α → Bool)
    (h : ∀ a ∈ l, p a = q a) : l.countP p = l.countP q := by
  induction l with
  | nil => rfl
  | cons a rest ih =>
    rw [List.countP_cons, List.countP_cons, h a (by simp),
      ih (fun b hb => h b (by simp [hb]))]

theorem bump_zero_restore (a : Atom) :
    bumpBy (zeroCounter a) a.implicitHydrogens.toNat = a := by
  cases a with
  | mk i e r s ihc c l =>
    simp only [bumpBy, zeroCounter]
    refine congrArg (fun v => Atom.mk i e r s v c l) ?_
    omega

theorem makeHydrogensExplicit_char (A : List Atom) (B : BondTable) (fl : Bool)
    (hnd : (atomIds A).Nodup)
    (hndB : (keysOf B).Nodup)
    (hkeysOut : ∀ p ∈ B, p.1 ∈ atomIds A)
    (hkeysIn : ∀ p ∈ B, ∀ q ∈ p.2, q.1 ∈ atomIds A)
    (hrowed : ∀ a ∈ A, 0 < a.implicitHydrogens → a.id ∈ keysOf B) :
    ChemGraph.makeHydrogensExplicit ⟨A, B, fl⟩ =
      ⟨A.map zeroCounter ++
         (planHydrogens A (freshBase ⟨A, B, fl⟩)).2.map (fun p => mkH p.1),
       addPlanEntries B (planHydrogens A (freshBase ⟨A, B, fl⟩)).2 ++
         planRows (planHydrogens A (freshBase ⟨A, B, fl⟩)).2,
       false⟩ := by
  have hbase : ∀ p ∈ (planHydrogens A (freshBase ⟨A, B, fl⟩)).2,
      freshBase ⟨A, B, fl⟩ ≤ p.1 := by
    intro p hp
    have hm : p.1 ∈ ((planHydrogens A (freshBase ⟨A, B, fl⟩)).2).map
        (fun p => p.1) := List.mem_map_of_mem _ hp
    rw [plans_fst_eq_range] at hm
    exact (List.mem_range'_1.mp hm).1
  have hkeylt : ∀ k ∈ keysOf B, k < freshBase ⟨A, B, fl⟩ := by
    intro k hk
    rw [keysOf, List.mem_map] at hk
    obtain ⟨q, hq, hqe⟩ := hk
    rw [← hqe]
    exact atomIds_lt_freshBase ⟨A, B, fl⟩ q.1 (hkeysOut q hq)
  have happ := applyPlans_char (planHydrogens A (freshBase ⟨A, B, fl⟩)).2
    (A.map zeroCounter) B fl hndB
    (by
      intro p hp hmem
      exact absurd (hkeylt p.1 hmem) (Nat.not_lt_of_le (hbase p hp)))
    (by
      intro p hp q hq r hr
      intro he
      have hlt := atomIds_lt_freshBase ⟨A, B, fl⟩ r.1 (hkeysIn q hq r hr)
      rw [← he] at hlt
      exact absurd hlt (Nat.not_lt_of_le (hbase p hp)))
    (by
      rw [plans_fst_eq_range]
      exact List.nodup_range' _ _)
    (by
      intro p hp
      obtain ⟨a, ha, hpa, hpos⟩ := plans_target_mem A _ p hp
      rw [hpa]
      exact hrowed a ha hpos)
    (by
      intro p hp q hq he
      obtain ⟨a, ha, hqa, _⟩ := plans_target_mem A _ q hq
      have hlt := atomIds_lt_freshBase ⟨A, B, fl⟩ a.id
        (List.mem_map_of_mem _ ha)
      rw [← hqa, ← he] at hlt
      exact absurd hlt (Nat.not_lt_of_le (hbase p hp)))
  show ({ ((planHydrogens A (freshBase ⟨A, B, fl⟩)).2.foldl
      (fun (g : ChemGraph) p => (g.addAtom (mkH p.1)).addBond p.1 p.2 ⟨1⟩)
      ⟨(planHydrogens A (freshBase ⟨A, B, fl⟩)).1, B, fl⟩) with
      implicitHydrogens := false } : ChemGraph) = _
  rw [planHydrogens_fst, happ]

end ExplicitChar

section RoundTrip

theorem plans_base_le (A : List Atom) (base : Nat) :
    ∀ p ∈ (planHydrogens A base).2, base ≤ p.1 := by
  intro p hp
  have hm : p.1 ∈ ((planHydrogens A base).2).map (fun p => p.1) :=
    List.mem_map_of_mem _ hp
  rw [plans_fst_eq_range] at hm
  exact (List.mem_range'_1.mp hm).1

theorem plans_fst_nodup (A : List Atom) (base : Nat) :
    ((planHydrogens A base).2.map (fun p => p.1)).Nodup := by
  rw [plans_fst_eq_range]
  exact List.nodup_range' _ _

theorem keysOf_planRows (P : List (Nat × Nat)) :
    keysOf (planRows P) = P.map (fun p => p.1) := by
  unfold keysOf planRows
  rw [List.map_map]
  exact List.map_congr_left (fun p _ => rfl)

theorem atomIds_append (X Y : List Atom) :
    atomIds (X ++ Y) = atomIds X ++ atomIds Y := by
  unfold atomIds
  rw [List.map_append]

theorem atomIds_mkH_map (P : List (Nat × Nat)) :
    atomIds (P.map (fun p => mkH p.1)) = P.map (fun p => p.1) := by
  unfold atomIds
  rw [List.map_map]
  exact List.map_congr_left (fun p _ => rfl)

theorem explicit_then_implicit (A : List Atom) (B : BondTable) (fl : Bool)
    (hnoH : ∀ a ∈ A, a.isHydrogen = false)
    (hnd : (atomIds A).Nodup)
    (hndB : (keysOf B).Nodup)
    (hkeysOut : ∀ p ∈ B, p.1 ∈ atomIds A)
    (hkeysIn : ∀ p ∈ B, ∀ q ∈ p.2, q.1 ∈ atomIds A)
    (hrowed : ∀ a ∈ A, 0 < a.implicitHydrogens → a.id ∈ keysOf B) :
    ∃ fl2, (ChemGraph.makeHydrogensExplicit ⟨A, B, fl⟩).makeHydrogensImplicit =
      .ok ⟨A, B, fl2⟩ := by
  rw [makeHydrogensExplicit_char A B fl hnd hndB hkeysOut hkeysIn hrowed]
  by_cases hA : A = []
  · subst hA
    have hB : B = [] := by
      cases B with
      | nil => rfl
      | cons p rest => exact absurd (hkeysOut p (by simp)) (by simp [atomIds])
    subst hB
    exact ⟨false, rfl⟩
  · refine ⟨true, ?_⟩
    set P := (planHydrogens A (freshBase ⟨A, B, fl⟩)).2 with hPdef
    set Ax := A.map zeroCounter ++ P.map (fun p => mkH p.1) with hAxdef
    set Bx := addPlanEntries B P ++ planRows P with hBxdef
    have hkeylt : ∀ k ∈ keysOf B, k < freshBase ⟨A, B, fl⟩ := by
      intro k hk
      rw [keysOf, List.mem_map] at hk
      obtain ⟨q, hq, hqe⟩ := hk
      rw [← hqe]
      exact atomIds_lt_freshBase ⟨A, B, fl⟩ q.1 (hkeysOut q hq)
    have hbase : ∀ p ∈ P, freshBase ⟨A, B, fl⟩ ≤ p.1 :=
      plans_base_le A (freshBase ⟨A, B, fl⟩)
    have hidlt := atomIds_lt_freshBase ⟨A, B, fl⟩
    have hPnd : (P.map (fun p => p.1)).Nodup := plans_fst_nodup A _
    have hndx : (atomIds Ax).Nodup := by
      rw [hAxdef, atomIds_append, atomIds_map_zero, atomIds_mkH_map,
        List.nodup_append]
      refine ⟨hnd, hPnd, ?_⟩
      intro x hx hx2
      rw [List.mem_map] at hx2
      obtain ⟨p, hp, hpe⟩ := hx2
      have h1 := hidlt x hx
      have h2 := hbase p hp
      omega
    have hsomex : ∃ a ∈ Ax, a.isHydrogen = false := by
      obtain ⟨a, ha⟩ := List.exists_mem_of_ne_nil A hA
      refine ⟨zeroCounter a, ?_, ?_⟩
      · rw [hAxdef]
        exact List.mem_append_left _ (List.mem_map_of_mem _ ha)
      · show a.isHydrogen = false
        exact hnoH a ha
    have hheadx : ∀ p ∈ P, headNeighborId Bx p.1 = some p.2 := by
      intro p hp
      unfold headNeighborId
      have h1 : dictGet Bx p.1 = some [(p.2, ⟨1⟩)] := by
        rw [hBxdef, dictGet_append_right]
        · refine dictGet_eq_of_mem_nodup _ _ _ ?_ ?_
          · rw [keysOf_planRows]
            exact hPnd
          · exact List.mem_map_of_mem _ hp
        · rw [keysOf_addPlanEntries]
          intro hmem
          exact absurd (hkeylt p.1 hmem) (Nat.not_lt_of_le (hbase p hp))
      rw [h1]
      rfl
    have hrowsx : ∀ a ∈ Ax, a.isHydrogen = true →
        (headNeighborId Bx a.id).isSome = true := by
      intro a ha hH
      rw [hAxdef, List.mem_append] at ha
      rcases ha with ha | ha
      · rw [List.mem_map] at ha
        obtain ⟨b, hb, hbe⟩ := ha
        have hf : a.isHydrogen = false := by
          rw [← hbe]
          exact hnoH b hb
        rw [hf] at hH
        cases hH
      · rw [List.mem_map] at ha
        obtain ⟨p, hp, hpe⟩ := ha
        have hid : a.id = p.1 := by rw [← hpe]; rfl
        rw [hid, hheadx p hp]
        rfl
    have hchar := makeHydrogensImplicit_char Ax Bx false hndx hsomex hrowsx
    rw [hchar]
    refine congrArg Except.ok ?_
    have hKdef : hydIds Ax = P.map (fun p => p.1) := by
      rw [hAxdef, hydIds_append]
      have h1 : hydIds (A.map zeroCounter) = [] := by
        unfold hydIds
        have hf : (A.map zeroCounter).filter (fun a => a.isHydrogen) = [] := by
          rw [List.filter_eq_nil_iff]
          intro a ha hc
          rw [List.mem_map] at ha
          obtain ⟨b, hb, hbe⟩ := ha
          have hff : a.isHydrogen = false := by
            rw [← hbe]
            exact hnoH b hb
          rw [hff] at hc
          cases hc
        rw [hf]
        rfl
      have h2 : hydIds (P.map (fun p => mkH p.1)) = P.map (fun p => p.1) := by
        unfold hydIds
        have hf : (P.map (fun p => mkH p.1)).filter (fun a => a.isHydrogen) =
            P.map (fun p => mkH p.1) := by
          rw [List.filter_eq_self]
          intro a ha
          rw [List.mem_map] at ha
          obtain ⟨p, _, hpe⟩ := ha
          rw [← hpe]
          rfl
        rw [hf, List.map_map]
        exact List.map_congr_left (fun p _ => rfl)
      rw [h1, h2, List.nil_append]
    rw [hKdef]
    have htc : ∀ a ∈ A, targetCount Bx Ax a.id = a.implicitHydrogens.toNat := by
      intro a ha
      unfold targetCount
      rw [hAxdef, List.countP_append]
      have hz : List.countP (fun x => x.isHydrogen &&
          (headNeighborId Bx x.id == some a.id)) (A.map zeroCounter) = 0 := by
        rw [List.countP_eq_zero]
        intro x hx hc
        rw [List.mem_map] at hx
        obtain ⟨b, hb, hbe⟩ := hx
        have hxh : x.isHydrogen = false := by
          rw [← hbe]
          exact hnoH b hb
        rw [hxh] at hc
        simp at hc
      have hm : List.countP (fun x => x.isHydrogen &&
          (headNeighborId Bx x.id == some a.id)) (P.map (fun p => mkH p.1)) =
          List.countP (fun p => p.2 == a.id) P := by
        rw [countP_map_eq]
        refine countP_congr_mem _ _ _ ?_
        intro p hp
        show ((mkH p.1).isHydrogen &&
          (headNeighborId Bx (mkH p.1).id == some a.id)) = (p.2 == a.id)
        have hid : (mkH p.1).id = p.1 := rfl
        rw [hid, hheadx p hp]
        show (true && (some p.2 == some a.id)) = (p.2 == a.id)
        simp
      rw [hz, hm, hPdef, plans_countP_target A _ hnd a ha, Nat.zero_add]
    have hatoms : (Ax.map (fun x => bumpBy x (targetCount Bx Ax x.id))).filter
        (fun a => decide (a.id ∉ P.map (fun p => p.1))) = A := by
      rw [hAxdef, List.map_append, List.filter_append]
      have hp2 : ((P.map (fun p => mkH p.1)).map
          (fun x => bumpBy x (targetCount Bx Ax x.id))).filter
          (fun a => decide (a.id ∉ P.map (fun p => p.1))) = [] := by
        rw [List.filter_eq_nil_iff]
        intro x hx hc
        rw [List.mem_map] at hx
        obtain ⟨y, hy, hye⟩ := hx
        rw [List.mem_map] at hy
        obtain ⟨p, hp, hpe⟩ := hy
        have hid : x.id = p.1 := by
          rw [← hye, ← hpe]
          rfl
        rw [decide_eq_true_iff] at hc
        exact hc (by rw [hid]; exact List.mem_map_of_mem _ hp)
      have hp1 : ((A.map zeroCounter).map
          (fun x => bumpBy x (targetCount Bx Ax x.id))).filter
          (fun a => decide (a.id ∉ P.map (fun p => p.1))) =
          (A.map zeroCounter).map
            (fun x => bumpBy x (targetCount Bx Ax x.id)) := by
        rw [List.filter_eq_self]
        intro x hx
        rw [List.mem_map] at hx
        obtain ⟨y, hy, hye⟩ := hx
        rw [List.mem_map] at hy
        obtain ⟨b, hb, hbe⟩ := hy
        have hid : x.id = b.id := by
          rw [← hye, ← hbe]
          rfl
        rw [decide_eq_true_iff]
        intro hmem
        rw [List.mem_map] at hmem
        obtain ⟨p, hp, hpe⟩ := hmem
        have h1 := hidlt b.id (List.mem_map_of_mem _ hb)
        have h2 := hbase p hp
        rw [hid] at hpe
        omega
      rw [hp1, hp2, List.append_nil, List.map_map]
      have hcong : A.map ((fun x => bumpBy x (targetCount Bx Ax x.id)) ∘
          zeroCounter) = A.map id := by
        refine List.map_congr_left ?_
        intro a ha
        show bumpBy (zeroCounter a) (targetCount Bx Ax (zeroCounter a).id) = a
        have hid : (zeroCounter a).id = a.id := rfl
        rw [hid, htc a ha]
        exact bump_zero_restore a
      rw [hcong, List.map_id]
    have hbonds : ((Bx.filter (fun p => decide (p.1 ∉ P.map (fun p => p.1)))).map
        (fun p => (p.1, p.2.filter
          (fun q => decide (q.1 ∉ P.map (fun p => p.1)))))) = B := by
      rw [hBxdef, List.filter_append]
      have hrows0 : (planRows P).filter
          (fun p => decide (p.1 ∉ P.map (fun p => p.1))) = [] := by
        rw [List.filter_eq_nil_iff]
        intro x hx hc
        unfold planRows at hx
        rw [List.mem_map] at hx
        obtain ⟨p, hp, hpe⟩ := hx
        rw [decide_eq_true_iff] at hc
        refine hc ?_
        rw [← hpe]
        exact List.mem_map_of_mem _ hp
      have hkeep : (addPlanEntries B P).filter
          (fun p => decide (p.1 ∉ P.map (fun p => p.1))) =
          addPlanEntries B P := by
        rw [List.filter_eq_self]
        intro x hx
        unfold addPlanEntries at hx
        rw [List.mem_map] at hx
        obtain ⟨q, hq, hqe⟩ := hx
        rw [decide_eq_true_iff]
        intro hmem
        rw [List.mem_map] at hmem
        obtain ⟨p, hp, hpe⟩ := hmem
        have h1 := hidlt q.1 (hkeysOut q hq)
        have h2 := hbase p hp
        have hx1 : x.1 = q.1 := by rw [← hqe]
        rw [hx1] at hpe
        omega
      rw [hrows0, hkeep, List.append_nil]
      unfold addPlanEntries
      rw [List.map_map]
      have hcong : B.map ((fun p => (p.1, p.2.filter
          (fun q => decide (q.1 ∉ P.map (fun p => p.1))))) ∘
          (fun p => (p.1, p.2 ++ planEntriesFor P p.1))) = B.map id := by
        refine List.map_congr_left ?_
        intro q hq
        show (q.1, (q.2 ++ planEntriesFor P q.1).filter
          (fun r => decide (r.1 ∉ P.map (fun p => p.1)))) = q
        rw [List.filter_append]
        have hq2 : q.2.filter (fun r => decide (r.1 ∉ P.map (fun p => p.1))) =
            q.2 := by
          rw [List.filter_eq_self]
          intro r hr
          rw [decide_eq_true_iff]
          intro hmem
          rw [List.mem_map] at hmem
          obtain ⟨p, hp, hpe⟩ := hmem
          have h1 := hidlt r.1 (hkeysIn q hq r hr)
          have h2 := hbase p hp
          omega
        have hpe0 : (planEntriesFor P q.1).filter
            (fun r => decide (r.1 ∉ P.map (fun p => p.1))) = [] := by
          rw [List.filter_eq_nil_iff]
          intro r hr hc
          unfold planEntriesFor at hr
          rw [List.mem_map] at hr
          obtain ⟨p, hp, hpe⟩ := hr
          rw [List.mem_filter] at hp
          rw [decide_eq_true_iff] at hc
          refine hc ?_
          rw [← hpe]
          exact List.mem_map_of_mem _ hp.1
        rw [hq2, hpe0, List.append_nil]
      rw [hcong, List.map_id]
    rw [hatoms, hbonds]

end RoundTrip

/-- Counterexample to C3 as stated: a graph holding one carbon bonded to
one explicit hydrogen of degree 1 has 2 atoms, but after
makeHydrogensExplicit then makeHydrogensImplicit only the carbon remains,
with its counter raised from 0 to 1 — neither the atom count, the bond
count, nor the counter is restored. -/
theorem c3_counterexample :
    gCH.makeHydrogensExplicit.makeHydrogensImplicit =
      .ok ⟨[⟨0, ⟨6, "C"⟩, 0, 1, 1, 0, ""⟩], [(0, [])], true⟩ ∧
    gCH.atoms.length = 2 := ⟨rfl, rfl⟩

/-- C3 (amended): on a well-formed ChemGraph with no explicit hydrogen
vertices — every hydrogen already stored implicitly — makeHydrogensExplicit
followed by makeHydrogensImplicit restores the atom list and the bond table
exactly, hence the atom count, the bond count, and every heavy atom's
implicitHydrogens counter. -/
theorem c3_roundtrip_amended (g : ChemGraph)
    (hnoH : ∀ a ∈ g.atoms, a.isHydrogen = false)
    (hnd : (atomIds g.atoms).Nodup)
    (hndB : (keysOf g.bonds).Nodup)
    (hkeysOut : ∀ p ∈ g.bonds, p.1 ∈ atomIds g.atoms)
    (hkeysIn : ∀ p ∈ g.bonds, ∀ q ∈ p.2, q.1 ∈ atomIds g.atoms)
    (hrowed : ∀ a ∈ g.atoms, 0 < a.implicitHydrogens → a.id ∈ keysOf g.bonds) :
    ∃ g2, g.makeHydrogensExplicit.makeHydrogensImplicit = .ok g2 ∧
      g2.atoms = g.atoms ∧ g2.bonds = g.bonds ∧
      g2.atoms.length = g.atoms.length ∧
      bondEntryCount g2.bonds = bondEntryCount g.bonds ∧
      (∀ a ∈ g.atoms, ∃ b ∈ g2.atoms, b.id = a.id ∧
        b.implicitHydrogens = a.implicitHydrogens) := by
  obtain ⟨fl2, hfl⟩ := explicit_then_implicit g.atoms g.bonds g.implicitHydrogens
    hnoH hnd hndB hkeysOut hkeysIn hrowed
  refine ⟨⟨g.atoms, g.bonds, fl2⟩, hfl, rfl, rfl, rfl, rfl, ?_⟩
  intro a ha
  exact ⟨a, ha, rfl, rfl⟩

/-- Witness for the amended C3 at a concrete compressed graph: a carbon
carrying two implicit hydrogens. -/
theorem c3_witness :
    (∀ a ∈ gC2H.atoms, a.isHydrogen = false) ∧
    ∃ g2, gC2H.makeHydrogensExplicit.makeHydrogensImplicit = .ok g2 ∧
      g2.atoms = gC2H.atoms ∧ g2.bonds = gC2H.bonds ∧
      g2.atoms.length = gC2H.atoms.length ∧
      bondEntryCount g2.bonds = bondEntryCount gC2H.bonds ∧
      (∀ a ∈ gC2H.atoms, ∃ b ∈ g2.atoms, b.id = a.id ∧
        b.implicitHydrogens = a.implicitHydrogens) := by
  refine ⟨by decide, ?_⟩
  exact c3_roundtrip_amended gC2H (by decide) (by decide) (by decide)
    (by decide) (by decide) (by decide)

section SortLemmas

theorem insertById_perm (a : Atom) (l : List Atom) :
    List.Perm (insertById a l) (a :: l) := by
  induction l with
  | nil => exact List.Perm.refl _
  | cons b rest ih =>
    unfold insertById
    by_cases h : a.id ≤ b.id
    · rw [if_pos h]
    · rw [if_neg h]
      exact (List.Perm.cons b ih).trans (List.Perm.swap a b rest)

theorem sortAtomsList_perm (l : List Atom) :
    List.Perm (sortAtomsList l) l := by
  induction l with
  | nil => exact List.Perm.refl _
  | cons a rest ih =>
    exact (insertById_perm a (sortAtomsList rest)).trans (List.Perm.cons a ih)

theorem atomIds_filter_by_id (L : List Atom) (q : Nat → Bool) :
    atomIds (L.filter (fun a => q a.id)) = (atomIds L).filter q := by
  induction L with
  | nil => rfl
  | cons a rest ih =>
    unfold atomIds at ih ⊢
    rw [List.filter_cons, List.map_cons, List.filter_cons]
    by_cases h : q a.id = true
    · rw [h]
      simp only [if_true, List.map_cons]
      rw [ih]
    · have h2 : q a.id = false := by
        cases hv : q a.id
        · rfl
        · exact absurd hv h
      rw [h2]
      simp only [Bool.false_eq_true, if_false]
      exact ih

end SortLemmas

section ExportLemmas

theorem exp_headNeighbor (A : List Atom) (B : BondTable) (fl : Bool)
    (hkeysOut : ∀ p ∈ B, p.1 ∈ atomIds A) :
    ∀ p ∈ (planHydrogens A (freshBase ⟨A, B, fl⟩)).2,
      headNeighborId (addPlanEntries B
          (planHydrogens A (freshBase ⟨A, B, fl⟩)).2 ++
        planRows (planHydrogens A (freshBase ⟨A, B, fl⟩)).2) p.1 =
      some p.2 := by
  intro p hp
  unfold headNeighborId
  have h1 : dictGet (addPlanEntries B
      (planHydrogens A (freshBase ⟨A, B, fl⟩)).2 ++
      planRows (planHydrogens A (freshBase ⟨A, B, fl⟩)).2) p.1 =
      some [(p.2, ⟨1⟩)] := by
    rw [dictGet_append_right]
    · refine dictGet_eq_of_mem_nodup _ _ _ ?_ ?_
      · rw [keysOf_planRows]
        exact plans_fst_nodup A _
      · exact List.mem_map_of_mem _ hp
    · rw [keysOf_addPlanEntries]
      intro hmem
      rw [keysOf, List.mem_map] at hmem
      obtain ⟨q, hq, hqe⟩ := hmem
      have h1 := atomIds_lt_freshBase ⟨A, B, fl⟩ q.1 (hkeysOut q hq)
      have h2 := plans_base_le A _ p hp
      omega
  rw [h1]
  rfl

theorem exp_ids_nodup (A : List Atom) (B : BondTable) (fl : Bool)
    (hnd : (atomIds A).Nodup) :
    (atomIds (A.map zeroCounter ++
      (planHydrogens A (freshBase ⟨A, B, fl⟩)).2.map
        (fun p => mkH p.1))).Nodup := by
  rw [atomIds_append, atomIds_map_zero, atomIds_mkH_map, List.nodup_append]
  refine ⟨hnd, plans_fst_nodup A _, ?_⟩
  intro x hx hx2
  rw [List.mem_map] at hx2
  obtain ⟨p, hp, hpe⟩ := hx2
  have h1 := atomIds_lt_freshBase ⟨A, B, fl⟩ x hx
  have h2 := plans_base_le A _ p hp
  omega

theorem hydIds_explicit (A : List Atom) (B : BondTable) (fl : Bool)
    (hnoH : ∀ a ∈ A, a.isHydrogen = false) :
    hydIds (A.map zeroCounter ++
      (planHydrogens A (freshBase ⟨A, B, fl⟩)).2.map (fun p => mkH p.1)) =
    (planHydrogens A (freshBase ⟨A, B, fl⟩)).2.map (fun p => p.1) := by
  rw [hydIds_append]
  have h1 : hydIds (A.map zeroCounter) = [] := by
    unfold hydIds
    have hf : (A.map zeroCounter).filter (fun a => a.isHydrogen) = [] := by
      rw [List.filter_eq_nil_iff]
      intro a ha hc
      rw [List.mem_map] at ha
      obtain ⟨b, hb, hbe⟩ := ha
      have hff : a.isHydrogen = false := by
        rw [← hbe]
        exact hnoH b hb
      rw [hff] at hc
      cases hc
    rw [hf]
    rfl
  have h2 : hydIds ((planHydrogens A (freshBase ⟨A, B, fl⟩)).2.map
      (fun p => mkH p.1)) =
      (planHydrogens A (freshBase ⟨A, B, fl⟩)).2.map (fun p => p.1) := by
    unfold hydIds
    have hf : ((planHydrogens A (freshBase ⟨A, B, fl⟩)).2.map
        (fun p => mkH p.1)).filter (fun a => a.isHydrogen) =
        (planHydrogens A (freshBase ⟨A, B, fl⟩)).2.map (fun p => mkH p.1) := by
      rw [List.filter_eq_self]
      intro a ha
      rw [List.mem_map] at ha
      obtain ⟨p, _, hpe⟩ := ha
      rw [← hpe]
      rfl
    rw [hf, List.map_map]
    exact List.map_congr_left (fun p _ => rfl)
  rw [h1, h2, List.nil_append]

end ExportLemmas

theorem toOBMolCG_false (g : ChemGraph) (hfl : g.implicitHydrogens = false) :
    toOBMolCG g = .ok (g.makeHydrogensExplicit.sortAtoms,
      ⟨(g.makeHydrogensExplicit.sortAtoms).atoms.map
        (fun a => (a.element.number, a.charge)),
       emitBonds (g.makeHydrogensExplicit.sortAtoms).atoms
         (g.makeHydrogensExplicit.sortAtoms).bonds⟩) := by
  unfold toOBMolCG
  rw [hfl]
  rfl

theorem toOBMolCG_true (g : ChemGraph) (hfl : g.implicitHydrogens = true)
    (g3 : ChemGraph)
    (h : (g.makeHydrogensExplicit.sortAtoms).makeHydrogensImplicit = .ok g3) :
    toOBMolCG g = .ok (g3,
      ⟨(g.makeHydrogensExplicit.sortAtoms).atoms.map
        (fun a => (a.element.number, a.charge)),
       emitBonds (g.makeHydrogensExplicit.sortAtoms).atoms
         (g.makeHydrogensExplicit.sortAtoms).bonds⟩) := by
  unfold toOBMolCG
  rw [hfl]
  simp [h]

/-- C5: export restores the exporting resonance form's representation flag
to its pre-call value for both possible initial flag values (for the
compressed case, under the data-model invariant that the flag only holds on
a well-formed, nonempty graph without hydrogen vertices), while the
canonical re-ordering of the atoms performed during export is permanent:
the final atom order is the canonically sorted order, restricted — when the
hydrogens are re-compressed — to the surviving original atoms. -/
theorem c5_flag_restored_sort_permanent (g : ChemGraph)
    (hinv : g.implicitHydrogens = true →
      ((∀ a ∈ g.atoms, a.isHydrogen = false) ∧ g.atoms ≠ [] ∧
       (atomIds g.atoms).Nodup ∧ (keysOf g.bonds).Nodup ∧
       (∀ p ∈ g.bonds, p.1 ∈ atomIds g.atoms) ∧
       (∀ p ∈ g.bonds, ∀ q ∈ p.2, q.1 ∈ atomIds g.atoms) ∧
       (∀ a ∈ g.atoms, 0 < a.implicitHydrogens → a.id ∈ keysOf g.bonds))) :
    ∃ g2 out, toOBMolCG g = .ok (g2, out) ∧
      g2.implicitHydrogens = g.implicitHydrogens ∧
      (g.implicitHydrogens = false →
        g2.atoms = sortAtomsList g.makeHydrogensExplicit.atoms) ∧
      (g.implicitHydrogens = true →
        atomIds g2.atoms =
          (atomIds (sortAtomsList g.makeHydrogensExplicit.atoms)).filter
            (fun i => decide (i ∈ atomIds g.atoms))) := by
  obtain ⟨A, B, flg⟩ := g
  cases flg with
  | false =>
    refine ⟨(ChemGraph.makeHydrogensExplicit ⟨A, B, false⟩).sortAtoms, _,
      toOBMolCG_false ⟨A, B, false⟩ rfl, rfl, fun _ => rfl, fun hc => ?_⟩
    exact Bool.noConfusion hc
  | true =>
    obtain ⟨hnoH, hAne, hnd, hndB, hkOut, hkIn, hrowed⟩ := hinv rfl
    have hexp := makeHydrogensExplicit_char A B true hnd hndB hkOut hkIn hrowed
    set P := (planHydrogens A (freshBase ⟨A, B, true⟩)).2 with hP
    set Ax := A.map zeroCounter ++ P.map (fun p => mkH p.1) with hAx
    set Bx := addPlanEntries B P ++ planRows P with hBx
    have hperm : List.Perm (sortAtomsList Ax) Ax := sortAtomsList_perm Ax
    have hpermIds : List.Perm (atomIds (sortAtomsList Ax)) (atomIds Ax) := by
      unfold atomIds
      exact hperm.map _
    have hndAx : (atomIds Ax).Nodup := by
      rw [hAx, hP]
      exact exp_ids_nodup A B true hnd
    have hndS : (atomIds (sortAtomsList Ax)).Nodup :=
      (hpermIds.nodup_iff).mpr hndAx
    have hsomeS : ∃ a ∈ sortAtomsList Ax, a.isHydrogen = false := by
      obtain ⟨a, ha⟩ := List.exists_mem_of_ne_nil A hAne
      refine ⟨zeroCounter a, ?_, hnoH a ha⟩
      rw [hperm.mem_iff, hAx]
      exact List.mem_append_left _ (List.mem_map_of_mem _ ha)
    have hrowsS : ∀ a ∈ sortAtomsList Ax, a.isHydrogen = true →
        (headNeighborId Bx a.id).isSome = true := by
      intro a ha hH
      rw [hperm.mem_iff, hAx, List.mem_append] at ha
      rcases ha with ha | ha
      · rw [List.mem_map] at ha
        obtain ⟨b, hb, hbe⟩ := ha
        have hf : a.isHydrogen = false := by
          rw [← hbe]
          exact hnoH b hb
        rw [hf] at hH
        cases hH
      · rw [List.mem_map] at ha
        obtain ⟨p, hp, hpe⟩ := ha
        have hid : a.id = p.1 := by rw [← hpe]; rfl
        rw [hid, hBx, hP]
        rw [exp_headNeighbor A B true hkOut p (by rw [← hP]; exact hp)]
        rfl
    have himp := makeHydrogensImplicit_char (sortAtomsList Ax) Bx false
      hndS hsomeS hrowsS
    have hsorted : (ChemGraph.makeHydrogensExplicit ⟨A, B, true⟩).sortAtoms =
        ⟨sortAtomsList Ax, Bx, false⟩ := by
      rw [hexp]
      rfl
    have himpok : ((ChemGraph.makeHydrogensExplicit
        ⟨A, B, true⟩).sortAtoms).makeHydrogensImplicit =
        .ok ⟨((sortAtomsList Ax).map (fun x => bumpBy x
            (targetCount Bx (sortAtomsList Ax) x.id))).filter
          (fun a => decide (a.id ∉ hydIds (sortAtomsList Ax))),
          (Bx.filter (fun p => decide (p.1 ∉ hydIds (sortAtomsList Ax)))).map
            (fun p => (p.1, p.2.filter
              (fun q => decide (q.1 ∉ hydIds (sortAtomsList Ax))))),
          true⟩ := by
      rw [hsorted]
      exact himp
    refine ⟨_, _, toOBMolCG_true ⟨A, B, true⟩ rfl _ himpok, rfl,
      fun hc => Bool.noConfusion hc, fun _ => ?_⟩
    show atomIds (((sortAtomsList Ax).map (fun x => bumpBy x
        (targetCount Bx (sortAtomsList Ax) x.id))).filter
        (fun a => decide (a.id ∉ hydIds (sortAtomsList Ax)))) = _
    rw [hexp]
    show _ = (atomIds (sortAtomsList Ax)).filter
      (fun i => decide (i ∈ atomIds A))
    rw [filter_map_by_id (sortAtomsList Ax)
      (fun i => targetCount Bx (sortAtomsList Ax) i)
      (fun i => decide (i ∉ hydIds (sortAtomsList Ax))),
      atomIds_map_bump, atomIds_filter_by_id (sortAtomsList Ax)
        (fun i => decide (i ∉ hydIds (sortAtomsList Ax)))]
    have he : hydIds Ax = P.map (fun p => p.1) := by
      have he2 := hydIds_explicit A B true hnoH
      rw [← hP] at he2
      rw [hAx]
      exact he2
    have hmemIff : ∀ i, i ∈ hydIds (sortAtomsList Ax) ↔
        i ∈ P.map (fun p => p.1) := by
      intro i
      have hp2 : List.Perm (hydIds (sortAtomsList Ax)) (hydIds Ax) := by
        unfold hydIds
        exact (hperm.filter _).map _
      rw [hp2.mem_iff, he]
    refine List.filter_congr ?_
    intro i hi
    by_cases hiP : i ∈ P.map (fun p => p.1)
    · have h1 : i ∈ hydIds (sortAtomsList Ax) := (hmemIff i).mpr hiP
      have h2 : i ∉ atomIds A := by
        intro hmem
        rw [List.mem_map] at hiP
        obtain ⟨p, hp, hpe⟩ := hiP
        have hb1 := atomIds_lt_freshBase ⟨A, B, true⟩ i hmem
        have hb2 := plans_base_le A (freshBase ⟨A, B, true⟩) p (by rw [← hP]; exact hp)
        omega
      simp [h1, h2]
    · have h1 : i ∉ hydIds (sortAtomsList Ax) := fun hc => hiP ((hmemIff i).mp hc)
      have h2 : i ∈ atomIds A := by
        have hi2 : i ∈ atomIds Ax := hpermIds.mem_iff.mp hi
        rw [hAx, atomIds_append, atomIds_map_zero, atomIds_mkH_map,
          List.mem_append] at hi2
        rcases hi2 with h | h
        · exact h
        · exact absurd h hiP
      simp [h1, h2]

/-- Witness for C5 at a concrete compressed resonance form: a carbon
carrying one implicit hydrogen with the representation flag set. -/
theorem c5_witness :
    gC1H.implicitHydrogens = true ∧
    ∃ g2 out, toOBMolCG gC1H = .ok (g2, out) ∧
      g2.implicitHydrogens = gC1H.implicitHydrogens ∧
      (gC1H.implicitHydrogens = false →
        g2.atoms = sortAtomsList gC1H.makeHydrogensExplicit.atoms) ∧
      (gC1H.implicitHydrogens = true →
        atomIds g2.atoms =
          (atomIds (sortAtomsList gC1H.makeHydrogensExplicit.atoms)).filter
            (fun i => decide (i ∈ atomIds gC1H.atoms))) := by
  refine ⟨rfl, ?_⟩
  exact c5_flag_restored_sort_permanent gC1H
    (fun _ => ⟨by decide, by decide, by decide, by decide, by decide,
      by decide, by decide⟩)

section EmissionLemmas

theorem countP_flatMap {α β : Type} (l : List α) (f : α → List β) (p : β → Bool) :
    (l.flatMap f).countP p = (l.map (fun x => (f x).countP p)).sum := by
  induction l with
  | nil => rfl
  | cons a rest ih =>
    rw [List.flatMap_cons, List.countP_append, List.map_cons, List.sum_cons, ih]

theorem countP_flatMap_if {α β : Type} (row : List α) (c : α → Prop)
    [DecidablePred c] (t : α → β) (pr : β → Bool) :
    (row.flatMap (fun q => if c q then [t q] else [])).countP pr =
      row.countP (fun q => decide (c q) && pr (t q)) := by
  induction row with
  | nil => rfl
  | cons q rest ih =>
    rw [List.flatMap_cons, List.countP_append, ih, List.countP_cons]
    by_cases hc : c q
    · rw [if_pos hc]
      by_cases hp : pr (t q) = true
      · simp [hp, hc, List.countP_cons]
        omega
      · have hp2 : pr (t q) = false := by
          cases hv : pr (t q)
          · rfl
          · exact absurd hv hp
        simp [hp2, hc, List.countP_cons]
    · rw [if_neg hc]
      simp [hc]

theorem sum_map_zero {α : Type} (l : List α) (f : α → Nat)
    (h : ∀ x ∈ l, f x = 0) : (l.map f).sum = 0 := by
  induction l with
  | nil => rfl
  | cons a rest ih =>
    rw [List.map_cons, List.sum_cons, h a (by simp),
      ih (fun x hx => h x (by simp [hx]))]

theorem sum_map_single (B : BondTable) (f : Nat × BondRow → Nat)
    (hndB : (keysOf B).Nodup) (k0 : Nat) (row0 : BondRow)
    (hmem : (k0, row0) ∈ B)
    (hzero : ∀ p ∈ B, p.1 ≠ k0 → f p = 0) :
    (B.map f).sum = f (k0, row0) := by
  induction B with
  | nil => cases hmem
  | cons p rest ih =>
    rw [keysOf, List.map_cons, List.nodup_cons] at hndB
    rw [List.map_cons, List.sum_cons]
    by_cases hp : p.1 = k0
    · have hpe : p = (k0, row0) := by
        rcases List.mem_cons.mp hmem with hm | hm
        · exact hm.symm
        · exact absurd (by rw [hp]; exact List.mem_map_of_mem _ hm :
            p.1 ∈ List.map (fun q => q.1) rest) hndB.1
      have hrest : (rest.map f).sum = 0 := by
        refine sum_map_zero rest f ?_
        intro x hx
        refine hzero x (List.mem_cons_of_mem p hx) ?_
        intro he
        refine hndB.1 ?_
        rw [hp, ← he]
        exact List.mem_map_of_mem _ hx
      rw [hrest, hpe]
      omega
    · have hm2 : (k0, row0) ∈ rest := by
        rcases List.mem_cons.mp hmem with hm | hm
        · exact absurd (by rw [← hm] : p.1 = k0) hp
        · exact hm
      rw [hzero p (by simp) hp,
        ih (by rw [keysOf]; exact hndB.2) hm2
          (fun x hx hxe => hzero x (List.mem_cons_of_mem p hx) hxe)]
      omega

theorem countP_key_nodup (row : BondRow) (hnd : (keysOf row).Nodup) (k : Nat)
    (hk : k ∈ keysOf row) : row.countP (fun q => q.1 == k) = 1 := by
  induction row with
  | nil => cases hk
  | cons q rest ih =>
    rw [keysOf, List.map_cons, List.nodup_cons] at hnd
    rw [List.countP_cons]
    by_cases hq : q.1 = k
    · have hz : List.countP (fun q2 => q2.1 == k) rest = 0 := by
        rw [List.countP_eq_zero]
        intro x hx hc
        rw [beq_iff_eq] at hc
        exact hnd.1 (by rw [hq, ← hc]; exact List.mem_map_of_mem _ hx)
      rw [hz]
      simp [hq]
    · rw [keysOf] at hk
      rcases List.mem_cons.mp hk with hm | hm
      · exact absurd hm.symm hq
      · have hb : (q.1 == k) = false := by
          simp [hq]
        rw [hb, ih (by rw [keysOf]; exact hnd.2) (by rw [keysOf]; exact hm)]
        simp

theorem idIndex_spec (atoms : List Atom) (i : Nat) (h : i ∈ atomIds atoms) :
    ∃ a, atoms.get? (idIndex atoms i) = some a ∧ a.id = i := by
  induction atoms with
  | nil => cases h
  | cons b rest ih =>
    by_cases hb : b.id = i
    · have hfi : idIndex (b :: rest) i = 0 := by
        unfold idIndex
        have hpb : (b.id == i) = true := by simp [hb]
        rw [List.findIdx_cons, hpb, Bool.cond_true]
      rw [hfi]
      exact ⟨b, rfl, hb⟩
    · have hm : i ∈ atomIds rest := by
        rw [atomIds, List.map_cons] at h
        rcases List.mem_cons.mp h with hm | hm
        · exact absurd hm.symm hb
        · exact hm
      obtain ⟨a, ha, hai⟩ := ih hm
      have hfi : idIndex (b :: rest) i = idIndex rest i + 1 := by
        unfold idIndex
        have hpb : (b.id == i) = false := by simp [hb]
        rw [List.findIdx_cons, hpb, Bool.cond_false]
      rw [hfi]
      exact ⟨a, ha, hai⟩

theorem idIndex_inj (atoms : List Atom) (i j : Nat)
    (hi : i ∈ atomIds atoms) (hj : j ∈ atomIds atoms)
    (he : idIndex atoms i = idIndex atoms j) : i = j := by
  obtain ⟨a, ha, hai⟩ := idIndex_spec atoms i hi
  obtain ⟨b, hb, hbj⟩ := idIndex_spec atoms j hj
  rw [he] at ha
  rw [ha] at hb
  injection hb with hb
  rw [← hai, ← hbj, hb]

theorem emit_lt (atoms : List Atom) (B : BondTable) :
    ∀ e ∈ emitBonds atoms B, e.1 < e.2.1 := by
  intro e he
  unfold emitBonds at he
  rw [List.mem_flatMap] at he
  obtain ⟨p, _, he2⟩ := he
  rw [List.mem_flatMap] at he2
  obtain ⟨q, _, he3⟩ := he2
  by_cases hc : idIndex atoms p.1 < idIndex atoms q.1
  · rw [if_pos hc] at he3
    rw [List.mem_singleton] at he3
    rw [he3]
    show idIndex atoms p.1 + 1 < idIndex atoms q.1 + 1
    omega
  · rw [if_neg hc] at he3
    cases he3

end EmissionLemmas

theorem c4_aux (atoms : List Atom) (B : BondTable)
    (hndB : (keysOf B).Nodup)
    (hrowsNd : ∀ p ∈ B, (keysOf p.2).Nodup)
    (hkeysOut : ∀ p ∈ B, p.1 ∈ atomIds atoms)
    (hkeysIn : ∀ p ∈ B, ∀ q ∈ p.2, q.1 ∈ atomIds atoms)
    (a b : Nat) (bd bd2 : Bond)
    (hab : bondValue B a b = some bd)
    (hba : bondValue B b a = some bd2)
    (hlt : idIndex atoms a < idIndex atoms b) :
    List.countP (fun e => (e.1 == idIndex atoms a + 1) &&
      (e.2.1 == idIndex atoms b + 1)) (emitBonds atoms B) = 1 := by
  rw [bondValue_eq, Option.bind_eq_some] at hab hba
  obtain ⟨rowa, hga, hgab⟩ := hab
  obtain ⟨rowb, hgb, hgba⟩ := hba
  have hamem : (a, rowa) ∈ B := dictGet_some_mem B a rowa hga
  have hbmem : (b, rowb) ∈ B := dictGet_some_mem B b rowb hgb
  have habmem : (b, bd) ∈ rowa := dictGet_some_mem rowa b bd hgab
  have haA : a ∈ atomIds atoms := hkeysOut (a, rowa) hamem
  have hbA : b ∈ atomIds atoms := hkeysOut (b, rowb) hbmem
  unfold emitBonds
  rw [countP_flatMap]
  rw [sum_map_single B _ hndB a rowa hamem ?_]
  · show ((a, rowa).2.flatMap (fun q =>
      if idIndex atoms (a, rowa).1 < idIndex atoms q.1 then
        [(idIndex atoms (a, rowa).1 + 1, idIndex atoms q.1 + 1, q.2.order)]
      else [])).countP _ = 1
    rw [countP_flatMap_if]
    have hcong : ∀ q ∈ rowa, (decide (idIndex atoms (a, rowa).1 <
        idIndex atoms (q : Nat × Bond).1) &&
        ((idIndex atoms (a, rowa).1 + 1 ==
          idIndex atoms a + 1) &&
         (idIndex atoms q.1 + 1 == idIndex atoms b + 1))) =
        (q.1 == b) := by
      intro q hq
      have hqA : q.1 ∈ atomIds atoms := hkeysIn (a, rowa) hamem q hq
      by_cases hqb : q.1 = b
      · simp [hqb, hlt]
      · have hne2 : (idIndex atoms q.1 + 1 == idIndex atoms b + 1) = false := by
          rw [beq_eq_false_iff_ne]
          intro he
          have heq : idIndex atoms q.1 = idIndex atoms b := by omega
          exact hqb (idIndex_inj atoms q.1 b hqA hbA heq)
        simp [hne2, hqb]
    rw [countP_congr_mem rowa _ _ hcong]
    refine countP_key_nodup rowa (hrowsNd (a, rowa) hamem) b ?_
    exact List.mem_map_of_mem _ habmem
  · intro p hp hpa
    rw [countP_flatMap_if, List.countP_eq_zero]
    intro q hq hc
    rw [Bool.and_eq_true, Bool.and_eq_true] at hc
    obtain ⟨h1, h2, h3⟩ := hc
    rw [beq_iff_eq] at h2
    have heq : idIndex atoms p.1 = idIndex atoms a := by omega
    exact hpa (idIndex_inj atoms p.1 a (hkeysOut p hp) haA heq)

/-- C4: during export, for every symmetrically stored bond pair between two
distinct atoms, every emitted foreign bond call has its first index below
its second, and exactly one call is emitted for the pair — the one with the
smaller canonical index first; no stored bond is emitted twice. -/
theorem c4_unique_emission (atoms : List Atom) (B : BondTable)
    (hndB : (keysOf B).Nodup)
    (hrowsNd : ∀ p ∈ B, (keysOf p.2).Nodup)
    (hkeysOut : ∀ p ∈ B, p.1 ∈ atomIds atoms)
    (hkeysIn : ∀ p ∈ B, ∀ q ∈ p.2, q.1 ∈ atomIds atoms)
    (a b : Nat) (bd bd2 : Bond)
    (hab : bondValue B a b = some bd) (hba : bondValue B b a = some bd2)
    (hne : a ≠ b) :
    (∀ e ∈ emitBonds atoms B, e.1 < e.2.1) ∧
    List.countP (fun e =>
      (e.1 == min (idIndex atoms a) (idIndex atoms b) + 1) &&
      (e.2.1 == max (idIndex atoms a) (idIndex atoms b) + 1))
      (emitBonds atoms B) = 1 := by
  refine ⟨emit_lt atoms B, ?_⟩
  have hab2 := hab
  have hba2 := hba
  rw [bondValue_eq, Option.bind_eq_some] at hab2 hba2
  obtain ⟨rowa, hga, hgab⟩ := hab2
  obtain ⟨rowb, hgb, hgba⟩ := hba2
  have haA : a ∈ atomIds atoms :=
    hkeysOut (a, rowa) (dictGet_some_mem B a rowa hga)
  have hbA : b ∈ atomIds atoms :=
    hkeysOut (b, rowb) (dictGet_some_mem B b rowb hgb)
  have hne2 : idIndex atoms a ≠ idIndex atoms b :=
    fun he => hne (idIndex_inj atoms a b haA hbA he)
  rcases Nat.lt_or_ge (idIndex atoms a) (idIndex atoms b) with hlt | hge
  · rw [Nat.min_eq_left (Nat.le_of_lt hlt), Nat.max_eq_right (Nat.le_of_lt hlt)]
    exact c4_aux atoms B hndB hrowsNd hkeysOut hkeysIn a b bd bd2 hab hba hlt
  · have hlt2 : idIndex atoms b < idIndex atoms a :=
      Nat.lt_of_le_of_ne hge (Ne.symm hne2)
    rw [Nat.min_eq_right (Nat.le_of_lt hlt2), Nat.max_eq_left (Nat.le_of_lt hlt2)]
    exact c4_aux atoms B hndB hrowsNd hkeysOut hkeysIn b a bd2 bd hba hab hlt2

/-- Witness for C4 at a concrete two-atom graph with one symmetric single
bond. -/
theorem c4_witness :
    bondValue gCOex.bonds 0 1 = some ⟨1⟩ ∧
    bondValue gCOex.bonds 1 0 = some ⟨1⟩ ∧
    (∀ e ∈ emitBonds gCOex.atoms gCOex.bonds, e.1 < e.2.1) ∧
    List.countP (fun e =>
      (e.1 == min (idIndex gCOex.atoms 0) (idIndex gCOex.atoms 1) + 1) &&
      (e.2.1 == max (idIndex gCOex.atoms 0) (idIndex gCOex.atoms 1) + 1))
      (emitBonds gCOex.atoms gCOex.bonds) = 1 := by
  refine ⟨by decide, by decide, ?_, ?_⟩
  · exact (c4_unique_emission gCOex.atoms gCOex.bonds (by decide) (by decide)
      (by decide) (by decide) 0 1 ⟨1⟩ ⟨1⟩ (by decide) (by decide) (by decide)).1
  · exact (c4_unique_emission gCOex.atoms gCOex.bonds (by decide) (by decide)
      (by decide) (by decide) 0 1 ⟨1⟩ ⟨1⟩ (by decide) (by decide) (by decide)).2
